import Mathlib

/-!
# Verification of the redux-orm storage/indexing/transaction engine

Shallow embedding of `src/db/Table.js` (the table engine) and `src/Schema.js`
(the registry) of the redux-orm repository, together with proofs about the
engine's documented properties.

Modelling conventions:
* JavaScript values occurring in records are embedded as `JSVal`
  (integers, `null`, `undefined` and plain objects; the claims under study
  exercise only those).  JavaScript numbers are modelled as `Int`: all the
  identity arithmetic in the source (`idSequencer`) is integer arithmetic.
* Record identities are modelled as `Int`.  Non-numeric (string) identities
  are outside the modelled fragment: the source itself documents that its
  `maxId` counter is meaningless for them.
* JavaScript objects are embedded as association lists in key insertion
  order, matching JS own-property enumeration order.  The keys of an index
  bucket map are the JS property-key strings obtained by coercing the
  indexed value; this coercion is captured exactly by `IKey`.
* `immutable-ops` primitives (`push`, `set`, `setIn`, `merge`, `omit`,
  `filter`, `splice`) are embedded as pure functions on these association
  lists.  The library's `batch` and `mutable` variants compute the same
  value and differ only in allocation/in-place mutation, which a pure
  embedding does not track; where the *surrounding* source code behaves
  differently in the two modes (`Table.delete`'s splice-vs-filter paths,
  and `Table.update`'s in-place merge aliasing, under which the index
  loop observes the already-patched rows), both behaviours are embedded
  and compared.
* Fallible paths (places where the JS code would throw a `TypeError`, e.g.
  `deleteFromIndex` on a missing bucket) return `Option`.
-/

/-- A JavaScript value as manipulated by the table engine: a (numeric)
primitive, `null`, `undefined`, or a plain object given by its own
enumerable properties in insertion order. -/
inductive JSVal where
  | num : Int → JSVal
  | null : JSVal
  | undefined : JSVal
  | obj : List (String × JSVal) → JSVal

/-- A record (a row of a table): a JS object, as its property list. -/
abbrev Rec := List (String × JSVal)

/-- JS truthiness, as used by `payload[this.idAttribute]` in `Table.query`. -/
def truthy : JSVal → Bool
  | .num n => n != 0
  | .null => false
  | .undefined => false
  | .obj _ => true

/-- Is the value a primitive (not an object)? -/
def isPrim : JSVal → Bool
  | .obj _ => false
  | _ => true

/-- The JS property key a value is coerced to when used as an object key
(`String(v)`).  On the embedded value universe this coercion is captured
exactly: every number maps to its decimal string (injectively), `null` to
`"null"`, `undefined` to `"undefined"`, and every plain object to
`"[object Object]"` (hence `kobj` identifies all of them). -/
inductive IKey where
  | knum : Int → IKey
  | knull : IKey
  | kundefined : IKey
  | kobj : IKey
deriving DecidableEq, Repr

/-- Coerce a value to the JS property key it denotes. -/
def toKey : JSVal → IKey
  | .num n => .knum n
  | .null => .knull
  | .undefined => .kundefined
  | .obj _ => .kobj

/-! ## Association lists (JS objects / maps)

`alookup`, `aset`, `aremove` model JS property read, property write
(`ops.set` / single-key `ops.merge`: overwrite in place, else append) and
property deletion (`ops.omit`). -/

/-- Property read: first binding of the key, if any. -/
def alookup {α β : Type} [DecidableEq α] (k : α) : List (α × β) → Option β
  | [] => none
  | (k1, v) :: rest => if k1 = k then some v else alookup k rest

/-- Property write: overwrite the first binding in place, else append.
This is the value computed by `ops.set` / `ops.merge` for a single key
(existing keys keep their position, new keys are appended). -/
def aset {α β : Type} [DecidableEq α] (k : α) (v : β) : List (α × β) → List (α × β)
  | [] => [(k, v)]
  | (k1, v1) :: rest => if k1 = k then (k, v) :: rest else (k1, v1) :: aset k v rest

/-- Property deletion (`ops.omit` with a single key). -/
def aremove {α β : Type} [DecidableEq α] (k : α) (m : List (α × β)) : List (α × β) :=
  m.filter (fun kv => kv.1 != k)

/-- Property deletion (`ops.omit` with a list of keys). -/
def aremoveAll {α β : Type} [DecidableEq α] (ks : List α) (m : List (α × β)) : List (α × β) :=
  m.filter (fun kv => !ks.contains kv.1)

/-- `ops.merge source target`: fold every binding of `source` into `target`
(overwrite in place or append), in `source` key order. -/
def amerge {α β : Type} [DecidableEq α] (source target : List (α × β)) : List (α × β) :=
  source.foldl (fun acc kv => aset kv.1 kv.2 acc) target

/-- Read a record field (`r[k]`): `undefined` when absent. -/
def getField (r : Rec) (k : String) : JSVal :=
  (alookup k r).getD .undefined

/-! ## lodash fragments used by `Table.query` -/

mutual

/-- `lodash` `baseIsEqual` restricted to the embedded value universe:
strict equality on primitives, structural key-set/value equality on plain
objects (JS objects cannot carry duplicate keys). -/
def jsEq : JSVal → JSVal → Bool
  | .num a, .num b => a == b
  | .null, .null => true
  | .undefined, .undefined => true
  | .obj fs, .obj gs => fs.length == gs.length && jsEqFields fs gs
  | _, _ => false

/-- Every binding of the first object matches the corresponding binding of
the second. -/
def jsEqFields : List (String × JSVal) → List (String × JSVal) → Bool
  | [], _ => true
  | (k, v) :: rest, gs =>
    (match alookup k gs with
     | some w => jsEq v w
     | none => false)
    && jsEqFields rest gs

end

/-- `lodash` `_.isMatch o payload` as used by a `filter`/`exclude` clause
applied to one collection element: every key of the payload is an own key
of `o` whose value is `baseIsEqual` to the payload's.  Primitives have no
own keys, so they match exactly the empty payload. -/
def isMatch (v : JSVal) (payload : Rec) : Bool :=
  payload.all (fun kv =>
    match v with
    | .obj fs =>
      (match alookup kv.1 fs with
       | some w => jsEq w kv.2
       | none => false)
    | _ => false)

/-- The values a lodash collection function iterates over when handed a
single (non-array) JS value: the own property values of an object, nothing
for a primitive. -/
def collValues : JSVal → List JSVal
  | .obj fs => fs.map (·.2)
  | _ => []

/-! ## The table engine (`src/db/Table.js`) -/

/-- Index options of one declared field, as read by the table engine
(`this.fields[fieldName].opts`).  The engine consults only `index` and
`isUnique` (`Table.getIndexedFields`, `Table.insertToIndex`,
`Table.deleteFromIndex`). -/
structure FieldOpts where
  index : Bool := false
  isUnique : Bool := false
deriving DecidableEq, Repr

/-- Static configuration of one `Table` instance (the constructor options).
`arrName` and `mapName` only choose the JS property names under which the
identity list and the by-identity map are stored; the embedding stores
them as fixed structure fields of `Branch`, so the two name options
disappear.  `fields` is the declared field map in key insertion order. -/
structure Table where
  idAttribute : String := "id"
  fields : List (String × FieldOpts) := []
  useIndex : Bool := true

/-- One storage branch (the state handled by a `Table`):
`items` (`arrName`) the ordered identity list, `itemsById` (`mapName`) the
identity-to-record map, `meta` the metadata map (holding `maxId`), and
`indexes` (`__indexes`) the per-field map from indexed-value key to the
bucket of identities. -/
structure Branch where
  items : List Int := []
  itemsById : List (Int × Rec) := []
  meta : List (String × Int) := []
  indexes : List (String × List (IKey × List Int)) := []

/-- The transaction context threaded through every mutating operation.
The JS context also carries an opaque `batchToken`, which only scopes
`immutable-ops` structural sharing and has no effect on computed values;
it is therefore not part of the embedded context. -/
structure Tx where
  withMutations : Bool

/-- `Table.getEmptyState`. -/
def Table.getEmptyState (_t : Table) : Branch := {}

/-- `idSequencer` (top of `Table.js`): from the current max id (absent on
the first insert) and the optionally user-supplied id, compute the new max
id and the id to use for row creation. -/
def idSequencer (currMax0 : Option Int) (userPassedId : Option Int) : Int × Int :=
  let currMax := currMax0.getD (-1)
  match userPassedId with
  | none => (currMax + 1, currMax + 1)
  | some s => (max (currMax + 1) s, s)

/-- `Table.accessId`: the record stored at an identity, if any. -/
def Table.accessId (_t : Table) (branch : Branch) (id : Int) : Option Rec :=
  alookup id branch.itemsById

/-- `Table.idExists`. -/
def Table.idExists (_t : Table) (branch : Branch) (id : Int) : Bool :=
  (alookup id branch.itemsById).isSome

/-- `Table.accessIdList`. -/
def Table.accessIdList (_t : Table) (branch : Branch) : List Int :=
  branch.items

/-- `Table.getMeta`. -/
def Table.getMeta (_t : Table) (branch : Branch) (key : String) : Option Int :=
  alookup key branch.meta

/-- `Table.getMaxId` (absent until the first insert). -/
def Table.getMaxId (t : Table) (branch : Branch) : Option Int :=
  t.getMeta branch "maxId"

/-- `Table.setMeta`: `setIn ['meta', key]`.  The `mutable` and `batch`
variants of `ops.setIn` compute the same value. -/
def Table.setMeta (_t : Table) (_tx : Tx) (branch : Branch) (key : String) (value : Int) :
    Branch :=
  { branch with meta := aset key value branch.meta }

/-- `Table.setMaxId`. -/
def Table.setMaxId (t : Table) (tx : Tx) (branch : Branch) (newMaxId : Int) : Branch :=
  t.setMeta tx branch "maxId" newMaxId

/-- `Table.getIndexedFields`: the declared field names whose options set
`index` or `isUnique`, in declaration order. -/
def Table.getIndexedFields (t : Table) : List String :=
  (t.fields.filter (fun kv => kv.2.index || kv.2.isUnique)).map (·.1)

/-- `Table.getIdListByIndex`: the bucket of identities indexed for a field
under a value (empty when the field or the value key is absent). -/
def Table.getIdListByIndex (_t : Table) (branch : Branch) (fieldName : String)
    (value : JSVal) : List Int :=
  let fieldIndex := (alookup fieldName branch.indexes).getD []
  (alookup (toKey value) fieldIndex).getD []

/-- `Table.insertToIndex`: record `id` in the bucket of `fieldName` under
(the key of) `value`.  A unique field with a non-`null` value *replaces*
the bucket by `[id]`; otherwise `id` is pushed onto the (possibly fresh)
bucket.  The final `setIn ['__indexes', fieldName, value]` creates the
field's bucket map when missing.  The `mutable` and `batch` branches of
the source compute the same value. -/
def Table.insertToIndex (_t : Table) (_tx : Tx) (branch : Branch) (id : Int)
    (fieldOpts : FieldOpts) (fieldName : String) (value : JSVal) : Branch :=
  let fieldIndex := (alookup fieldName branch.indexes).getD []
  let valueIndex :=
    if fieldOpts.isUnique && !(jsEq value .null) then
      [id]
    else
      (alookup (toKey value) fieldIndex).getD [] ++ [id]
  { branch with
      indexes := aset fieldName (aset (toKey value) valueIndex fieldIndex) branch.indexes }

/-- `Table.deleteFromIndex`: remove `id` from the bucket of `fieldName`
under `value`.  A unique field with a non-`null` value drops the whole
bucket key (`ops.omit`); otherwise the bucket is filtered.  The source
reads `workingState.__indexes[fieldName]` (and, on the filter path,
`fieldIndex[value]`) without a default, so a missing field map (or a
missing bucket on the filter path) is a `TypeError` in JS, embedded as
`none`.  Both transaction modes compute the same value. -/
def Table.deleteFromIndex (_t : Table) (_tx : Tx) (branch : Branch) (id : Int)
    (fieldOpts : FieldOpts) (fieldName : String) (value : JSVal) : Option Branch :=
  match alookup fieldName branch.indexes with
  | none => none
  | some fieldIndex =>
    if fieldOpts.isUnique && !(jsEq value .null) then
      some { branch with indexes := aset fieldName (aremove (toKey value) fieldIndex) branch.indexes }
    else
      match alookup (toKey value) fieldIndex with
      | none => none
      | some bucket =>
        some { branch with
                 indexes := aset fieldName
                   (aset (toKey value) (bucket.filter (fun i => i != id)) fieldIndex)
                   branch.indexes }

/-- The identity denoted by a record's id-attribute value, in the modelled
(numeric-identity) fragment. -/
def asId : JSVal → Option Int
  | .num n => some n
  | _ => none

/-- The declared options of a field (`this.fields[fieldName].opts || {}`). -/
def Table.fieldOptsOf (t : Table) (fieldName : String) : FieldOpts :=
  (alookup fieldName t.fields).getD {}

/-- The `getIndexedFields().forEach(...)` loop of `Table.insert`: thread the
working state through `insertToIndex` for every indexed field, indexing the
*original* entry's value (`entry[fieldName]`). -/
def Table.insertIndexLoop (t : Table) (tx : Tx) (id : Int) (entry : Rec) :
    List String → Branch → Branch
  | [], ws => ws
  | fieldName :: rest, ws =>
    t.insertIndexLoop tx id entry rest
      (t.insertToIndex tx ws id (t.fieldOptsOf fieldName) fieldName (getField entry fieldName))

/-- `Table.insert`: allocate the identity with `idSequencer`, store the new
max id, index the entry under every indexed field, then append the identity
to the identity list and the finalized record (the entry, with the
identity set when it was absent) to the by-identity map.  Returns the new
state and the created record.

An entry whose id attribute is present but neither numeric nor `undefined`
is outside the modelled numeric-identity fragment and yields `none` (the
JS code would proceed with `NaN`/string-keyed identities, which the source
documents as caller-managed territory).  The `mutable` and `batch` branches
of the tail compute the same value (`push`/`set` versus
`merge {arrName: push, mapName: merge}`). -/
def Table.insert (t : Table) (tx : Tx) (branch : Branch) (entry : Rec) :
    Option (Branch × Rec) :=
  let hasId := (alookup t.idAttribute entry).isSome
  match
    (match getField entry t.idAttribute with
     | .num n => some (some n)
     | .undefined => some none
     | _ => none : Option (Option Int))
  with
  | none => none
  | some userPassedId =>
    let seq := idSequencer (t.getMaxId branch) userPassedId
    let newMaxId := seq.1
    let id := seq.2
    let workingState := t.setMaxId tx branch newMaxId
    let finalEntry := if hasId then entry else aset t.idAttribute (.num id) entry
    let ws2 := t.insertIndexLoop tx id entry t.getIndexedFields workingState
    some ({ ws2 with
              items := ws2.items ++ [id],
              itemsById := aset id finalEntry ws2.itemsById },
          finalEntry)

/-- The `rows.reduce(...)` of `Table.update`, building the new by-identity
map: each row is merged with `mergeObj` (`merge(mergeObj, row)`: the patch
wins) and stored under the *result's* id attribute. -/
def Table.updateMapLoop (t : Table) (mergeObj : Rec) :
    List Rec → List (Int × Rec) → Option (List (Int × Rec))
  | [], m => some m
  | row :: rest, m =>
    let result := amerge mergeObj row
    match asId (getField result t.idAttribute) with
    | none => none
    | some rid => t.updateMapLoop mergeObj rest (aset rid result m)

/-- The inner `rows.forEach` of `Table.update`'s index maintenance for one
indexed field: remove the row's id from the bucket of the value the loop
reads off the row (`row[fieldName]`), then insert the merged result's id
under its new value.  The `rows` handed to this loop are the row values as
the source loop observes them: in batch mode the original rows, in
`withMutations` mode the rows already patched in place by the map-building
reduce (see `Table.update`), so there `getField row fieldName` is the NEW
value and `amerge mergeObj row` re-merges an already-merged row. -/
def Table.updateIndexRows (t : Table) (tx : Tx) (mergeObj : Rec)
    (fieldOpts : FieldOpts) (fieldName : String) :
    List Rec → Branch → Option Branch
  | [], ws => some ws
  | row :: rest, ws =>
    match asId (getField row t.idAttribute) with
    | none => none
    | some rid =>
      match t.deleteFromIndex tx ws rid fieldOpts fieldName (getField row fieldName) with
      | none => none
      | some ws2 =>
        let result := amerge mergeObj row
        match asId (getField result t.idAttribute) with
        | none => none
        | some rid2 =>
          t.updateIndexRows tx mergeObj fieldOpts fieldName rest
            (t.insertToIndex tx ws2 rid2 fieldOpts fieldName (getField result fieldName))

/-- The outer `getIndexedFields().forEach` of `Table.update`. -/
def Table.updateIndexFields (t : Table) (tx : Tx) (mergeObj : Rec) (rows : List Rec) :
    List String → Branch → Option Branch
  | [], ws => some ws
  | fieldName :: rest, ws =>
    match t.updateIndexRows tx mergeObj (t.fieldOptsOf fieldName) fieldName rows ws with
    | none => none
    | some ws2 => t.updateIndexFields tx mergeObj rows rest ws2

/-- `Table.update`: merge `mergeObj` over every row and store each result
at its identity, then (per indexed field, per row) delete the row's index
entry at the value the loop reads and re-insert the merged result's id
under its new value.  The two modes genuinely differ here: with
`withMutations` the map-building reduce runs `ops.mutable.merge(mergeObj,
row)`, patching every row object *in place* before the index loop runs, so
that loop reads `row[fieldName]` (and `row[idAttribute]`) off the
already-merged rows — rendered by handing it `rows.map (amerge mergeObj)`
— whereas `ops.batch.merge` leaves the rows untouched and the loop reads
the old values. -/
def Table.update (t : Table) (tx : Tx) (branch : Branch) (rows : List Rec)
    (mergeObj : Rec) : Option Branch :=
  match t.updateMapLoop mergeObj rows branch.itemsById with
  | none => none
  | some newMap =>
    let workingState := { branch with itemsById := newMap }
    let rowsSeen := if tx.withMutations then rows.map (amerge mergeObj) else rows
    t.updateIndexFields tx mergeObj rowsSeen t.getIndexedFields workingState

/-- `rows.map(row => row[this.idAttribute])` in the modelled numeric
fragment. -/
def rowIdsOf (t : Table) : List Rec → Option (List Int)
  | [] => some []
  | row :: rest =>
    match asId (getField row t.idAttribute), rowIdsOf t rest with
    | some i, some is => some (i :: is)
    | _, _ => none

/-- The inner `rows.forEach` of `Table.delete`'s index maintenance. -/
def Table.deleteIndexRows (t : Table) (tx : Tx) (fieldOpts : FieldOpts)
    (fieldName : String) : List Rec → Branch → Option Branch
  | [], ws => some ws
  | row :: rest, ws =>
    match asId (getField row t.idAttribute) with
    | none => none
    | some rid =>
      match t.deleteFromIndex tx ws rid fieldOpts fieldName (getField row fieldName) with
      | none => none
      | some ws2 => t.deleteIndexRows tx fieldOpts fieldName rest ws2

/-- The outer `getIndexedFields().forEach` of `Table.delete`. -/
def Table.deleteIndexFields (t : Table) (tx : Tx) (rows : List Rec) :
    List String → Branch → Option Branch
  | [], ws => some ws
  | fieldName :: rest, ws =>
    match t.deleteIndexRows tx (t.fieldOptsOf fieldName) fieldName rows ws with
    | none => none
    | some ws2 => t.deleteIndexFields tx rows rest ws2

/-- `Array.prototype.indexOf` + `splice(idx, 1)`: remove the first
occurrence of `id`, if present. -/
def removeFirst (id : Int) : List Int → List Int
  | [] => []
  | x :: xs => if x = id then xs else x :: removeFirst id xs

/-- `Table.delete`: per indexed field and row, remove the row's index
entries; then remove the row identities from the identity list and the
by-identity map.  Here the two transaction modes run different algorithms:
the `withMutations` path splices the *first* occurrence of each id out of
the identity list (`indexOf`/`splice`) and omits the map keys one by one,
while the batch path filters the identity list (dropping *every*
occurrence) and omits all keys at once. -/
def Table.delete (t : Table) (tx : Tx) (branch : Branch) (rows : List Rec) :
    Option Branch :=
  match t.deleteIndexFields tx rows t.getIndexedFields branch with
  | none => none
  | some branch2 =>
    match rowIdsOf t rows with
    | none => none
    | some idsToDelete =>
      if tx.withMutations then
        some (idsToDelete.foldl
          (fun st id =>
            { st with items := removeFirst id st.items,
                      itemsById := aremove id st.itemsById })
          branch2)
      else
        some { branch2 with
                 items := branch2.items.filter (fun id => !idsToDelete.contains id),
                 itemsById := aremoveAll idsToDelete branch2.itemsById }

/-! ## Query evaluation (`Table.query`) -/

/-- A query clause (`FILTER` / `EXCLUDE` / `ORDER_BY` from `constants.js`).
An `ORDER_BY` payload is the pair `[iteratees, orders]`; an iteratee is a
field name and an order is `true` for `'asc'` (lodash treats anything but
`'desc'` as ascending, including a missing entry) and `false` for
`'desc'`. -/
inductive Clause where
  | filter (payload : Rec)
  | exclude (payload : Rec)
  | orderBy (iteratees : List String) (orders : List Bool)

/-- The value a query reduction step works on: a JS array of values, or the
single bare record object returned by the primary-key fast path. -/
inductive Rows where
  | arr : List JSVal → Rows
  | one : JSVal → Rows

/-- lodash `uniq` as performed inside `intersection`: keep the first
occurrence of each element. -/
def jsDedup {α : Type} [DecidableEq α] (l : List α) : List α :=
  l.foldl (fun acc x => if acc.contains x then acc else acc ++ [x]) []

/-- lodash `intersection a b`: the deduplicated elements of `a`, in order,
that also occur in `b`. -/
def jsIntersect {α : Type} [DecidableEq α] (a b : List α) : List α :=
  (jsDedup a).filter (fun x => b.contains x)

/-- lodash `compareAscending` restricted to the embedded value universe:
numbers ascending, then `null`, then `undefined`; objects compare equal to
each other and to numbers (their coerced comparisons are all false) but
sit before `null` and `undefined`. -/
def compareAsc : JSVal → JSVal → Int
  | .num a, .num b => if a < b then -1 else if b < a then 1 else 0
  | .num _, .null => -1
  | .num _, .undefined => -1
  | .num _, .obj _ => 0
  | .null, .num _ => 1
  | .null, .null => 0
  | .null, .undefined => -1
  | .null, .obj _ => 1
  | .undefined, .num _ => 1
  | .undefined, .null => 1
  | .undefined, .undefined => 0
  | .undefined, .obj _ => 1
  | .obj _, .num _ => 0
  | .obj _, .null => -1
  | .obj _, .undefined => -1
  | .obj _, .obj _ => 0

/-- `_.get(v, iteratee)` for a plain property-name iteratee: `undefined`
on anything but an object. -/
def getCrit (v : JSVal) (iteratee : String) : JSVal :=
  match v with
  | .obj fs => getField fs iteratee
  | _ => .undefined

/-- Pair every iteratee with its order (missing orders default to
ascending, as lodash's `orders[index] == 'desc'` test does). -/
def zipOrders (iteratees : List String) (orders : List Bool) : List (String × Bool) :=
  iteratees.enum.map (fun p => (p.2, (orders.get? p.1).getD true))

/-- lodash `compareMultiple` without its final index tie-break: compare by
each criterion in turn, flipping descending ones. -/
def cmpChain : List (String × Bool) → JSVal → JSVal → Int
  | [], _, _ => 0
  | (it, asc) :: rest, a, b =>
    let c := compareAsc (getCrit a it) (getCrit b it)
    if c = 0 then cmpChain rest a b else if asc then c else -c

/-- Insert `x` after every element comparing `≤ 0` against it: combined
with a left fold this yields a stable sort, which is what lodash's
criteria-then-original-index comparison implements. -/
def insertSorted (cmp : JSVal → JSVal → Int) (x : JSVal) : List JSVal → List JSVal
  | [] => [x]
  | y :: ys => if cmp y x ≤ 0 then y :: insertSorted cmp x ys else x :: y :: ys

/-- Stable sort by a comparison function (lodash `baseOrderBy`). -/
def sortStable (cmp : JSVal → JSVal → Int) (l : List JSVal) : List JSVal :=
  l.foldl (fun acc x => insertSorted cmp x acc) []

/-- Does the primary-key fast-path value name an existing identity?
(`this.idExists(branch, id)`: the map's keys are the stringified integer
identities, which the string coercion of `null`, `undefined` or an object
never equals.) -/
def Table.idExistsVal (t : Table) (branch : Branch) (v : JSVal) : Bool :=
  match v with
  | .num n => t.idExists branch n
  | _ => false

/-- `this.accessId(branch, id)` on a fast-path value (`undefined` when the
identity is absent, as in JS). -/
def Table.accessIdVal (t : Table) (branch : Branch) (v : JSVal) : JSVal :=
  match v with
  | .num n =>
    (match t.accessId branch n with
     | some r => JSVal.obj r
     | none => JSVal.undefined)
  | _ => JSVal.undefined

/-- `Table.accessList`: project the identity list through the by-identity
map (a hole would be `undefined`, as in JS). -/
def Table.accessList (t : Table) (branch : Branch) : List JSVal :=
  branch.items.map (fun id =>
    match t.accessId branch id with
    | some r => JSVal.obj r
    | none => JSVal.undefined)

/-- The index pre-filtering stage of `Table.query`: scan every `filter`
clause, and for each of its payload keys that is an indexed field,
intersect (lodash `intersection`) the per-field indexed id lists.  `none`
means no clause touched an indexed field (`isFilteredByIndex` stayed
false). -/
def Table.queryIndexCandidates (t : Table) (branch : Branch) (clauses : List Clause) :
    Option (List Int) :=
  clauses.foldl
    (fun acc c =>
      match c with
      | .filter payload =>
        (jsIntersect (payload.map (·.1)) t.getIndexedFields).foldl
          (fun acc2 fieldName =>
            let ids := t.getIdListByIndex branch fieldName (getField payload fieldName)
            match acc2 with
            | none => some ids
            | some prev => some (jsIntersect prev ids))
          acc
      | _ => acc)
    none

/-- One step of the clause reduction in `Table.query`.  A `filter` clause
whose payload has an own, truthy id-attribute value takes the primary-key
fast path: it ignores the incoming rows and returns the bare record (or an
empty array).  All other clauses apply the corresponding lodash collection
function to the incoming rows — which, when the incoming value is a bare
record, iterates over the record's property values. -/
def Table.applyClause (t : Table) (branch : Branch) (rows : Rows) : Clause → Rows
  | .filter payload =>
    if (alookup t.idAttribute payload).isSome && truthy (getField payload t.idAttribute) then
      let idVal := getField payload t.idAttribute
      if t.idExistsVal branch idVal then Rows.one (t.accessIdVal branch idVal)
      else Rows.arr []
    else
      match rows with
      | .arr l => .arr (l.filter (fun v => isMatch v payload))
      | .one v => .arr ((collValues v).filter (fun w => isMatch w payload))
  | .exclude payload =>
    match rows with
    | .arr l => .arr (l.filter (fun v => !isMatch v payload))
    | .one v => .arr ((collValues v).filter (fun w => !isMatch w payload))
  | .orderBy iteratees orders =>
    let elems := match rows with | .arr l => l | .one v => collValues v
    .arr (sortStable (cmpChain (zipOrders iteratees orders)) elems)

/-- `Table.query`: start from the index-filtered candidate list (when
index use is enabled and some filter clause touches an indexed field) or
from the full record list, then reduce the clause sequence left to
right. -/
def Table.query (t : Table) (branch : Branch) (clauses : List Clause) : Rows :=
  let list :=
    if t.useIndex then
      match t.queryIndexCandidates branch clauses with
      | some ids =>
        Rows.arr (ids.map (fun id =>
          match t.accessId branch id with
          | some r => JSVal.obj r
          | none => JSVal.undefined))
      | none => Rows.arr (t.accessList branch)
    else Rows.arr (t.accessList branch)
  clauses.foldl (t.applyClause branch) list

/-! ## The registry (`src/Schema.js`)

Only the registry state and the operations the claims are about are
embedded: `register` / `registerManyToManyModelsFor` / `get`.  A model
class is embedded by the data those operations consume: its name and its
declared field map.  `model.invalidateCaches()` clears cached derived data
on the class and does not touch the registry state, so it has no effect in
the embedding. -/

/-- A declared field, as far as `Schema` inspects it: its kind and its
target collection name (`'this'` marks a self-reference). -/
inductive FieldDecl where
  | attr
  | foreignKey (toModelName : String)
  | oneToOne (toModelName : String)
  | manyToMany (toModelName : String)
deriving DecidableEq, Repr

/-- A model (collection) definition: its name and its declared fields in
declaration order. -/
structure ModelDef where
  modelName : String
  fields : List (String × FieldDecl) := []
deriving DecidableEq, Repr

/-- The `Schema` state: the explicit registry and the implicitly generated
through (join) models. -/
structure Schema where
  registry : List ModelDef := []
  implicitThroughModels : List ModelDef := []
deriving DecidableEq, Repr

/-- Modelled from the spec: `m2mName` lives in `utils.js`, which is not
part of the provided sources; the spec requires the join collection to be
"named deterministically from the owning collection and field name". -/
def m2mName (modelName fieldName : String) : String :=
  modelName ++ fieldName

/-- Modelled from the spec: `m2mFromFieldName` (from `utils.js`, not in
the provided sources) derives the source-side foreign-key field name from
the owning collection's name. -/
def m2mFromFieldName (modelName : String) : String :=
  "from" ++ modelName ++ "Id"

/-- Modelled from the spec: `m2mToFieldName` (from `utils.js`, not in the
provided sources) derives the target-side foreign-key field name from the
target collection's name. -/
def m2mToFieldName (toModelName : String) : String :=
  "to" ++ toModelName ++ "Id"

/-- The through model `Schema.registerManyToManyModelsFor` synthesizes for
one many-to-many field: named from the owning model and the field, with
two foreign keys — one back at the owning model, one at the target model,
`'this'` resolved to the owning model. -/
def mkThroughModel (thisModelName fieldName declaredTarget : String) : ModelDef :=
  let toModelName := if declaredTarget = "this" then thisModelName else declaredTarget
  { modelName := m2mName thisModelName fieldName,
    fields := [(m2mFromFieldName thisModelName, .foreignKey thisModelName),
               (m2mToFieldName toModelName, .foreignKey toModelName)] }

/-- `Schema.registerManyToManyModelsFor`: scan the model's declared fields
in order and push one through model per many-to-many field onto the
implicit list. -/
def Schema.registerManyToManyModelsFor (s : Schema) (model : ModelDef) : Schema :=
  model.fields.foldl
    (fun acc f =>
      match f.2 with
      | .manyToMany target =>
        { acc with implicitThroughModels :=
            acc.implicitThroughModels ++ [mkThroughModel model.modelName f.1 target] }
      | _ => acc)
    s

/-- `Schema.register`: for each model in order, synthesize its through
models, then push the model itself onto the explicit registry. -/
def Schema.register (s : Schema) (models : List ModelDef) : Schema :=
  models.foldl
    (fun acc model =>
      let acc2 := acc.registerManyToManyModelsFor model
      { acc2 with registry := acc2.registry ++ [model] })
    s

/-- `Schema.get`: find the first model, explicit registry first and
implicit through models second, whose name matches; the `none` case is the
thrown `Did not find model ... from registry.` error. -/
def Schema.get (s : Schema) (modelName : String) : Option ModelDef :=
  (s.registry ++ s.implicitThroughModels).find? (fun m => m.modelName == modelName)

/-! ## Operation sequences over one table

The orchestrator (Session, out of scope) drives one table through a
sequence of mutating operations, passing `update`/`delete` the rows it
currently holds.  An operation sequence is embedded accordingly: `update`
and `delete` name their target rows by identity and the step function
passes the records currently stored at those identities, exactly the
"caller-supplied rows are currently valid members" contract of the
spec. -/

/-- One mutating operation on a table. -/
inductive Op where
  | insert (entry : Rec)
  | update (ids : List Int) (mergeObj : Rec)
  | delete (ids : List Int)

/-- Resolve a list of identities to the records currently stored at them
(the rows a Session would pass to `update`/`delete`). -/
def Table.recordsOf (t : Table) (branch : Branch) : List Int → Option (List Rec)
  | [] => some []
  | id :: rest =>
    match t.accessId branch id, t.recordsOf branch rest with
    | some r, some rs => some (r :: rs)
    | _, _ => none

/-- Run one operation (resolving `update`/`delete` target ids to the
records currently stored). -/
def Table.step (t : Table) (tx : Tx) (branch : Branch) : Op → Option Branch
  | .insert entry => (t.insert tx branch entry).map (·.1)
  | .update ids mergeObj =>
    match t.recordsOf branch ids with
    | none => none
    | some rows => t.update tx branch rows mergeObj
  | .delete ids =>
    match t.recordsOf branch ids with
    | none => none
    | some rows => t.delete tx branch rows

/-- Run a sequence of operations. -/
def Table.run (t : Table) (tx : Tx) (branch : Branch) : List Op → Option Branch
  | [] => some branch
  | op :: rest =>
    match t.step tx branch op with
    | none => none
    | some branch2 => t.run tx branch2 rest

/-- Do all values of a record lie in the primitive fragment? -/
def primRec (r : Rec) : Bool :=
  r.all (fun kv => isPrim kv.2)

/-- Is one operation valid in a given state?  This is the caller contract
the spec states for the table engine, made explicit:
* an insert carries either no id attribute or a fresh numeric one, and
  only primitive field values;
* an update targets distinct identities that are all present, patches only
  primitive values and does not patch the id attribute itself;
* a delete targets distinct identities that are all present. -/
def Table.validOp (t : Table) (branch : Branch) : Op → Bool
  | .insert entry =>
    primRec entry &&
    (match alookup t.idAttribute entry with
     | none => true
     | some (.num n) => !(t.idExists branch n)
     | some _ => false)
  | .update ids mergeObj =>
    ids.all (fun id => t.idExists branch id) && decide ids.Nodup &&
    primRec mergeObj && (alookup t.idAttribute mergeObj).isNone
  | .delete ids =>
    ids.all (fun id => t.idExists branch id) && decide ids.Nodup

/-- The copy-on-write transaction context. -/
def Table.cowTx (_t : Table) : Tx := { withMutations := false }

/-- The in-place transaction context. -/
def Table.mutTx (_t : Table) : Tx := { withMutations := true }

/-- Is a whole operation sequence valid from a given state?  (Validity is
judged along the copy-on-write semantics; the transaction-mode-equivalence
theorem shows the in-place mode computes the same states.) -/
def Table.validRun (t : Table) (branch : Branch) : List Op → Bool
  | [] => true
  | op :: rest =>
    t.validOp branch op &&
    (match t.step t.cowTx branch op with
     | none => false
     | some branch2 => t.validRun branch2 rest)

/-- Does an operation avoid the spot where the two transaction modes read
different values — an update whose patch names an indexed field?  (With
`withMutations` the in-place merge has already patched the rows when the
index loop runs, so such an update makes `deleteFromIndex` look up the NEW
value's bucket: a `TypeError` if it is absent, a stale old bucket if not.) -/
def Table.opModeSafe (t : Table) : Op → Bool
  | .update _ mergeObj =>
    t.getIndexedFields.all (fun f => (alookup f mergeObj).isNone)
  | _ => true


/-! ## Association-list lemmas -/

theorem alookup_aset {α β : Type} [DecidableEq α] (k k1 : α) (v : β) (m : List (α × β)) :
    alookup k1 (aset k v m) = if k = k1 then some v else alookup k1 m := by
  induction m with
  | nil => by_cases h : k = k1 <;> simp [aset, alookup, h]
  | cons kv rest ih =>
    obtain ⟨k2, v2⟩ := kv
    by_cases h2 : k2 = k
    · subst h2
      by_cases h : k2 = k1 <;> simp [aset, alookup, h]
    · by_cases h : k2 = k1
      · subst h
        have : ¬ k = k2 := fun hh => h2 hh.symm
        simp [aset, alookup, h2, this]
      · simp [aset, alookup, h2, h, ih]

theorem aremove_cons {α β : Type} [DecidableEq α] (k k2 : α) (v2 : β)
    (rest : List (α × β)) :
    aremove k ((k2, v2) :: rest) =
      if k2 = k then aremove k rest else (k2, v2) :: aremove k rest := by
  by_cases h : k2 = k <;> simp [aremove, List.filter_cons, h]

theorem alookup_aremove {α β : Type} [DecidableEq α] (k k1 : α) (m : List (α × β)) :
    alookup k1 (aremove k m) = if k = k1 then none else alookup k1 m := by
  induction m with
  | nil =>
    show alookup k1 ([] : List (α × β)) = _
    simp [alookup]
  | cons kv rest ih =>
    obtain ⟨k2, v2⟩ := kv
    rw [aremove_cons]
    by_cases h2 : k2 = k
    · rw [if_pos h2, ih]
      by_cases h : k = k1
      · simp [h]
      · have hne : k2 ≠ k1 := by rw [h2]; exact h
        simp [h, alookup, hne]
    · rw [if_neg h2]
      by_cases h3 : k2 = k1
      · subst h3
        have : ¬ k = k2 := fun hh => h2 hh.symm
        simp [alookup, this]
      · simp [alookup, h3, ih]

theorem mem_aset {α β : Type} [DecidableEq α] (k : α) (v : β) (m : List (α × β)) :
    ∀ kv ∈ aset k v m, kv = (k, v) ∨ kv ∈ m := by
  induction m with
  | nil =>
    intro kv h
    simp [aset] at h
    exact Or.inl h
  | cons kv0 rest ih =>
    obtain ⟨k0, v0⟩ := kv0
    intro kv h
    by_cases h0 : k0 = k
    · simp only [aset, if_pos h0] at h
      rcases List.mem_cons.mp h with h1 | h1
      · exact Or.inl h1
      · exact Or.inr (List.mem_cons.mpr (Or.inr h1))
    · simp only [aset, if_neg h0] at h
      rcases List.mem_cons.mp h with h1 | h1
      · exact Or.inr (List.mem_cons.mpr (Or.inl h1))
      · rcases ih kv h1 with h2 | h2
        · exact Or.inl h2
        · exact Or.inr (List.mem_cons.mpr (Or.inr h2))

theorem alookup_isSome_of_mem {α β : Type} [DecidableEq α] (k : α) (v : β)
    (m : List (α × β)) (h : (k, v) ∈ m) : (alookup k m).isSome := by
  induction m with
  | nil => cases h
  | cons kv rest ih =>
    obtain ⟨k0, v0⟩ := kv
    rcases List.mem_cons.mp h with h1 | h1
    · cases h1
      simp [alookup]
    · by_cases h2 : k0 = k <;> simp [alookup, h2, ih h1]

theorem alookup_aremoveAll {α β : Type} [DecidableEq α] (ks : List α) (k1 : α)
    (m : List (α × β)) :
    alookup k1 (aremoveAll ks m) = if k1 ∈ ks then none else alookup k1 m := by
  induction m with
  | nil =>
    show alookup k1 ([] : List (α × β)) = _
    simp [alookup]
  | cons kv rest ih =>
    obtain ⟨k2, v2⟩ := kv
    by_cases h2 : k2 ∈ ks
    · have : aremoveAll ks ((k2, v2) :: rest) = aremoveAll ks rest := by
        simp [aremoveAll, List.filter_cons, h2]
      rw [this, ih]
      by_cases h : k1 ∈ ks
      · simp [h]
      · have hne : k2 ≠ k1 := fun hh => h (hh ▸ h2)
        simp [h, alookup, hne]
    · have : aremoveAll ks ((k2, v2) :: rest) = (k2, v2) :: aremoveAll ks rest := by
        simp [aremoveAll, List.filter_cons, h2]
      rw [this]
      by_cases h3 : k2 = k1
      · subst h3
        simp [alookup, h2]
      · simp [alookup, h3, ih]

theorem amerge_alookup_none {α β : Type} [DecidableEq α] (src tgt : List (α × β)) (k : α)
    (h : alookup k src = none) : alookup k (amerge src tgt) = alookup k tgt := by
  induction src generalizing tgt with
  | nil => rfl
  | cons kv rest ih =>
    obtain ⟨k2, v2⟩ := kv
    have h2 : ¬ k2 = k := by
      intro hh
      simp [alookup, hh] at h
    have h3 : alookup k rest = none := by
      simpa [alookup, h2] using h
    show alookup k (amerge rest (aset k2 v2 tgt)) = _
    rw [ih (aset k2 v2 tgt) h3, alookup_aset, if_neg h2]

theorem mem_amerge {α β : Type} [DecidableEq α] (src tgt : List (α × β)) :
    ∀ kv ∈ amerge src tgt, kv ∈ src ∨ kv ∈ tgt := by
  induction src generalizing tgt with
  | nil => intro kv h; exact Or.inr h
  | cons kv2 rest ih =>
    intro kv h
    have h2 := ih (aset kv2.1 kv2.2 tgt) kv h
    rcases h2 with h2 | h2
    · exact Or.inl (List.mem_cons.mpr (Or.inr h2))
    · rcases mem_aset kv2.1 kv2.2 tgt kv h2 with h3 | h3
      · exact Or.inl (List.mem_cons.mpr (Or.inl (by simpa using h3)))
      · exact Or.inr h3

theorem foldl_aremove_eq_aremoveAll {α β : Type} [DecidableEq α] (ks : List α)
    (m : List (α × β)) :
    ks.foldl (fun acc k => aremove k acc) m = aremoveAll ks m := by
  induction ks generalizing m with
  | nil =>
    show m = m.filter _
    symm
    rw [List.filter_eq_self]
    intro kv _
    simp
  | cons k rest ih =>
    show rest.foldl _ (aremove k m) = _
    rw [ih]
    show (m.filter _).filter _ = m.filter _
    rw [List.filter_filter]
    apply List.filter_congr
    intro kv _
    simp only [List.contains_cons, Bool.not_or]
    rw [Bool.and_comm]
    rfl

theorem removeFirst_eq_filter (i : Int) (xs : List Int) (h : xs.Nodup) :
    removeFirst i xs = xs.filter (fun x => x != i) := by
  induction xs with
  | nil => rfl
  | cons x rest ih =>
    rcases List.nodup_cons.mp h with ⟨hx, hrest⟩
    by_cases h2 : x = i
    · subst h2
      rw [removeFirst, if_pos rfl, List.filter_cons]
      simp only [bne_self_eq_false, if_neg, Bool.false_eq_true, not_false_eq_true]
      rw [List.filter_eq_self.mpr]
      intro y hy
      have : y ≠ x := fun hh => hx (hh ▸ hy)
      simpa using this
    · rw [removeFirst, if_neg h2, List.filter_cons]
      have hb : (x != i) = true := by simpa using h2
      rw [if_pos hb, ih hrest]

/-! ## Index-operation effect lemmas -/

/-- The bucket of a field under a key (the key-level view of
`Table.getIdListByIndex`). -/
def bucketK (b : Branch) (f : String) (k : IKey) : List Int :=
  (alookup k ((alookup f b.indexes).getD [])).getD []

theorem getIdListByIndex_eq_bucketK (t : Table) (b : Branch) (f : String) (v : JSVal) :
    t.getIdListByIndex b f v = bucketK b f (toKey v) := rfl

/-- The one-bucket update `insertToIndex` performs, as a value. -/
def newBucketIns (o : FieldOpts) (old : List Int) (id : Int) (v : JSVal) : List Int :=
  if o.isUnique && !(jsEq v .null) then [id] else old ++ [id]

theorem insertToIndex_items (t : Table) (tx : Tx) (b : Branch) (id : Int) (o : FieldOpts)
    (f : String) (v : JSVal) : (t.insertToIndex tx b id o f v).items = b.items := rfl

theorem insertToIndex_itemsById (t : Table) (tx : Tx) (b : Branch) (id : Int) (o : FieldOpts)
    (f : String) (v : JSVal) : (t.insertToIndex tx b id o f v).itemsById = b.itemsById := rfl

theorem insertToIndex_meta (t : Table) (tx : Tx) (b : Branch) (id : Int) (o : FieldOpts)
    (f : String) (v : JSVal) : (t.insertToIndex tx b id o f v).meta = b.meta := rfl

theorem bucketK_insertToIndex (t : Table) (tx : Tx) (b : Branch) (id : Int) (o : FieldOpts)
    (f : String) (v : JSVal) (f1 : String) (k1 : IKey) :
    bucketK (t.insertToIndex tx b id o f v) f1 k1 =
      if f = f1 then
        (if toKey v = k1 then newBucketIns o (bucketK b f (toKey v)) id v
         else bucketK b f1 k1)
      else bucketK b f1 k1 := by
  unfold Table.insertToIndex bucketK newBucketIns
  simp only
  rw [alookup_aset]
  by_cases hf : f = f1
  · rw [if_pos hf, if_pos hf]
    subst hf
    simp only [Option.getD_some]
    rw [alookup_aset]
    by_cases hk : toKey v = k1
    · rw [if_pos hk, if_pos hk, Option.getD_some]
    · rw [if_neg hk, if_neg hk]
  · rw [if_neg hf, if_neg hf]

theorem deleteFromIndex_eq (t : Table) (tx : Tx) (b : Branch) (id : Int) (o : FieldOpts)
    (f : String) (v : JSVal) (b2 : Branch)
    (h : t.deleteFromIndex tx b id o f v = some b2) :
    b2.items = b.items ∧ b2.itemsById = b.itemsById ∧ b2.meta = b.meta ∧
    ∀ (f1 : String) (k1 : IKey),
      bucketK b2 f1 k1 =
        if f = f1 then
          (if toKey v = k1 then
            (if o.isUnique && !(jsEq v .null) then []
             else (bucketK b f (toKey v)).filter (fun i => i != id))
           else bucketK b f1 k1)
        else bucketK b f1 k1 := by
  unfold Table.deleteFromIndex at h
  cases hfi : alookup f b.indexes with
  | none =>
    simp only [hfi] at h
    cases h
  | some fi =>
    simp only [hfi] at h
    by_cases huniq : (o.isUnique && !(jsEq v .null)) = true
    · rw [if_pos huniq] at h
      cases h
      refine ⟨rfl, rfl, rfl, ?_⟩
      intro f1 k1
      show (alookup k1 ((alookup f1 (aset f (aremove (toKey v) fi) b.indexes)).getD [])).getD [] = _
      rw [alookup_aset]
      by_cases hf : f = f1
      · rw [if_pos hf, if_pos hf]
        simp only [Option.getD_some]
        rw [alookup_aremove]
        by_cases hk : toKey v = k1
        · rw [if_pos hk, if_pos hk, if_pos huniq]
          rfl
        · rw [if_neg hk, if_neg hk]
          subst hf
          rw [bucketK, hfi, Option.getD_some]
      · rw [if_neg hf, if_neg hf]
        rfl
    · rw [if_neg huniq] at h
      cases hbu : alookup (toKey v) fi with
      | none =>
        simp only [hbu] at h
        cases h
      | some bucket =>
        simp only [hbu] at h
        cases h
        refine ⟨rfl, rfl, rfl, ?_⟩
        intro f1 k1
        show (alookup k1 ((alookup f1 (aset f (aset (toKey v) (bucket.filter (fun i => i != id)) fi) b.indexes)).getD [])).getD [] = _
        rw [alookup_aset]
        by_cases hf : f = f1
        · rw [if_pos hf, if_pos hf]
          simp only [Option.getD_some]
          rw [alookup_aset]
          by_cases hk : toKey v = k1
          · rw [if_pos hk, if_pos hk, if_neg huniq, Option.getD_some]
            subst hf
            rw [bucketK, hfi, Option.getD_some, hbu, Option.getD_some]
          · rw [if_neg hk, if_neg hk]
            subst hf
            rw [bucketK, hfi, Option.getD_some]
        · rw [if_neg hf, if_neg hf]
          rfl

/-! ## The table invariant -/

/-- Well-formedness of a table configuration, as JS guarantees it:
declared field names are distinct (JS object keys), and the id attribute
is not itself a declared indexed field (redux-orm models declare the id
attribute outside `fields`). -/
def TWF (t : Table) : Prop :=
  (t.fields.map (·.1)).Nodup ∧ t.idAttribute ∉ t.getIndexedFields

/-- The current max id, with the sequencer's default. -/
def maxD (t : Table) (b : Branch) : Int :=
  (t.getMaxId b).getD (-1)

/-- The state invariant maintained by valid operation sequences:
the identity list is duplicate-free and coincides with the key set of the
by-identity map; every stored record carries its own (numeric) identity
and only primitive field values; every stored identity is bounded by the
max-id metadata; non-unique indexed fields are exact (a bucket holds
exactly the identities whose record's field coerces to that key); unique
indexed fields have at most one identity per non-`null` bucket. -/
structure TInv (t : Table) (b : Branch) : Prop where
  nodup : b.items.Nodup
  keys : ∀ id : Int, id ∈ b.items ↔ (alookup id b.itemsById).isSome
  idfield : ∀ id : Int, ∀ r : Rec, alookup id b.itemsById = some r →
    getField r t.idAttribute = .num id
  prim : ∀ id : Int, ∀ r : Rec, alookup id b.itemsById = some r →
    ∀ kv ∈ r, isPrim kv.2 = true
  maxid : ∀ id ∈ b.items, id ≤ maxD t b
  exact : ∀ f ∈ t.getIndexedFields, (t.fieldOptsOf f).isUnique = false →
    ∀ (k : IKey) (id : Int), id ∈ bucketK b f k ↔
      ∃ r : Rec, alookup id b.itemsById = some r ∧ toKey (getField r f) = k
  uniqlen : ∀ f ∈ t.getIndexedFields, (t.fieldOptsOf f).isUnique = true →
    ∀ k : IKey, k ≠ .knull → (bucketK b f k).length ≤ 1

theorem TInv_empty (t : Table) : TInv t t.getEmptyState := by
  refine ⟨List.nodup_nil, ?_, ?_, ?_, ?_, ?_, ?_⟩
  · intro id
    constructor
    · intro h; cases h
    · intro h; cases h
  · intro id r h; cases h
  · intro id r h; cases h
  · intro id h; cases h
  · intro f _ _ k id
    constructor
    · intro h; cases h
    · rintro ⟨r, hr, _⟩; cases hr
  · intro f _ _ k _
    show (([] : List Int).length ≤ 1)
    simp

theorem getIndexedFields_nodup (t : Table) (hwf : TWF t) : t.getIndexedFields.Nodup := by
  have h := hwf.1
  unfold Table.getIndexedFields
  have hsub : (t.fields.filter (fun kv => kv.2.index || kv.2.isUnique)).Sublist t.fields :=
    List.filter_sublist _
  have : ((t.fields.filter (fun kv => kv.2.index || kv.2.isUnique)).map (·.1)).Sublist
      (t.fields.map (·.1)) := hsub.map _
  exact h.sublist this

theorem toKey_inj_prim (v w : JSVal) (hv : isPrim v = true) (hw : isPrim w = true)
    (h : toKey v = toKey w) : v = w := by
  cases v <;> cases w <;> simp_all [isPrim, toKey]

theorem getField_prim (t : Table) (b : Branch) (hInv : TInv t b) (id : Int) (r : Rec)
    (hr : alookup id b.itemsById = some r) (f : String) : isPrim (getField r f) = true := by
  unfold getField
  cases hl : alookup f r with
  | none => rfl
  | some v =>
    have hmem : (f, v) ∈ r := by
      clear hr
      induction r with
      | nil => cases hl
      | cons kv rest ih =>
        obtain ⟨k2, v2⟩ := kv
        by_cases h2 : k2 = f
        · subst h2
          simp [alookup] at hl
          simp [hl]
        · simp only [alookup, h2, if_false] at hl
          exact List.mem_cons.mpr (Or.inr (ih hl))
    exact hInv.prim id r hr (f, v) hmem

/-! ### Insert preservation -/

theorem insertIndexLoop_items (t : Table) (tx : Tx) (id : Int) (entry : Rec) :
    ∀ (fs : List String) (ws : Branch),
    (t.insertIndexLoop tx id entry fs ws).items = ws.items ∧
    (t.insertIndexLoop tx id entry fs ws).itemsById = ws.itemsById ∧
    (t.insertIndexLoop tx id entry fs ws).meta = ws.meta := by
  intro fs
  induction fs with
  | nil => intro ws; exact ⟨rfl, rfl, rfl⟩
  | cons f rest ih =>
    intro ws
    exact ih (t.insertToIndex tx ws id (t.fieldOptsOf f) f (getField entry f))

theorem insertIndexLoop_bucketK (t : Table) (tx : Tx) (id : Int) (entry : Rec) :
    ∀ (fs : List String), fs.Nodup → ∀ (ws : Branch) (f1 : String) (k1 : IKey),
    bucketK (t.insertIndexLoop tx id entry fs ws) f1 k1 =
      if f1 ∈ fs then
        (if toKey (getField entry f1) = k1 then
          newBucketIns (t.fieldOptsOf f1) (bucketK ws f1 k1) id (getField entry f1)
         else bucketK ws f1 k1)
      else bucketK ws f1 k1 := by
  intro fs
  induction fs with
  | nil =>
    intro _ ws f1 k1
    simp [Table.insertIndexLoop]
  | cons f rest ih =>
    intro hnd ws f1 k1
    rcases List.nodup_cons.mp hnd with ⟨hf, hrest⟩
    show bucketK (t.insertIndexLoop tx id entry rest
      (t.insertToIndex tx ws id (t.fieldOptsOf f) f (getField entry f))) f1 k1 = _
    rw [ih hrest]
    by_cases h1 : f1 ∈ rest
    · have hne : f ≠ f1 := fun hh => hf (hh ▸ h1)
      rw [if_pos h1, if_pos (List.mem_cons.mpr (Or.inr h1))]
      rw [bucketK_insertToIndex, if_neg hne]
    · rw [if_neg h1]
      by_cases h2 : f1 = f
      · subst h2
        rw [if_pos (List.mem_cons.mpr (Or.inl rfl))]
        rw [bucketK_insertToIndex, if_pos rfl]
        by_cases hk : toKey (getField entry f1) = k1
        · rw [if_pos hk, if_pos hk, hk]
        · rw [if_neg hk, if_neg hk]
      · have : f1 ∉ (f :: rest) := by
          intro hmem
          rcases List.mem_cons.mp hmem with h3 | h3
          · exact h2 h3
          · exact h1 h3
        rw [if_neg this, bucketK_insertToIndex, if_neg (fun hh => h2 hh.symm)]

theorem jsEq_null_iff (v : JSVal) : jsEq v .null = true ↔ v = .null := by
  cases v <;> simp [jsEq]

theorem toKey_eq_knull_iff (v : JSVal) : toKey v = .knull ↔ v = .null := by
  cases v <;> simp [toKey]

theorem bucketK_setMeta (t : Table) (tx : Tx) (b : Branch) (key : String) (value : Int)
    (f : String) (k : IKey) : bucketK (t.setMeta tx b key value) f k = bucketK b f k := rfl

theorem primRec_mem (r : Rec) (h : primRec r = true) : ∀ kv ∈ r, isPrim kv.2 = true := by
  intro kv hkv
  exact List.all_eq_true.mp h kv hkv

theorem not_mem_items_of_lookup_none (t : Table) (b : Branch) (hInv : TInv t b) (id : Int)
    (h : alookup id b.itemsById = none) : id ∉ b.items := by
  intro hmem
  have := (hInv.keys id).mp hmem
  rw [h] at this
  cases this

theorem insert_core (t : Table) (hwf : TWF t) (b : Branch) (entry : Rec)
    (id newMax : Int) (fe : Rec) (b2 : Branch)
    (hfe_id : getField fe t.idAttribute = .num id)
    (hfe_val : ∀ f, f ≠ t.idAttribute → getField fe f = getField entry f)
    (hfe_prim : primRec fe = true)
    (hInv : TInv t b)
    (hfresh : alookup id b.itemsById = none)
    (hbound : ∀ i ∈ b.items, i ≤ newMax) (hidb : id ≤ newMax)
    (hb2i : b2.items = b.items ++ [id])
    (hb2m : b2.itemsById = aset id fe b.itemsById)
    (hb2meta : b2.meta = aset "maxId" newMax b.meta)
    (hb2bk : ∀ (f1 : String) (k1 : IKey),
      bucketK b2 f1 k1 =
        if f1 ∈ t.getIndexedFields then
          (if toKey (getField entry f1) = k1 then
            newBucketIns (t.fieldOptsOf f1) (bucketK b f1 k1) id (getField entry f1)
           else bucketK b f1 k1)
        else bucketK b f1 k1) :
    TInv t b2 := by
  have hidnotin : id ∉ b.items := not_mem_items_of_lookup_none t b hInv id hfresh
  have hidne : ∀ f, f ∈ t.getIndexedFields → f ≠ t.idAttribute := by
    intro f hf hh
    exact hwf.2 (hh ▸ hf)
  refine ⟨?_, ?_, ?_, ?_, ?_, ?_, ?_⟩
  · rw [hb2i, List.nodup_append]
    exact ⟨hInv.nodup, List.nodup_singleton id,
      fun a ha hb => by
        rcases List.mem_singleton.mp hb with rfl
        exact hidnotin ha⟩
  · intro id1
    rw [hb2i, hb2m, List.mem_append, List.mem_singleton, alookup_aset]
    by_cases h : id = id1
    · subst h
      simp
    · rw [if_neg h]
      have : ¬ id1 = id := fun hh => h hh.symm
      simp only [this, or_false]
      exact hInv.keys id1
  · intro id1 r hr
    rw [hb2m, alookup_aset] at hr
    by_cases h : id = id1
    · subst h
      rw [if_pos rfl] at hr
      cases hr
      exact hfe_id
    · rw [if_neg h] at hr
      exact hInv.idfield id1 r hr
  · intro id1 r hr
    rw [hb2m, alookup_aset] at hr
    by_cases h : id = id1
    · subst h
      rw [if_pos rfl] at hr
      cases hr
      exact primRec_mem fe hfe_prim
    · rw [if_neg h] at hr
      exact hInv.prim id1 r hr
  · intro id1 h1
    rw [maxD, Table.getMaxId, Table.getMeta, hb2meta, alookup_aset, if_pos rfl]
    rw [hb2i, List.mem_append, List.mem_singleton] at h1
    show id1 ≤ newMax
    rcases h1 with h1 | rfl
    · exact hbound id1 h1
    · exact hidb
  · intro f hf hu k id1
    rw [hb2bk f k, if_pos hf, hb2m]
    have hfid : f ≠ t.idAttribute := hidne f hf
    have hfeval : getField fe f = getField entry f := hfe_val f hfid
    constructor
    · intro hmem
      by_cases hk : toKey (getField entry f) = k
      · rw [if_pos hk] at hmem
        rw [newBucketIns, hu] at hmem
        rw [Bool.false_and, if_neg Bool.false_ne_true] at hmem
        rw [List.mem_append, List.mem_singleton] at hmem
        rcases hmem with hmem | rfl
        · obtain ⟨r, hr, hrk⟩ := (hInv.exact f hf hu k id1).mp hmem
          refine ⟨r, ?_, hrk⟩
          rw [alookup_aset]
          have : ¬ id = id1 := by
            intro hh
            subst hh
            rw [hfresh] at hr
            cases hr
          rw [if_neg this]
          exact hr
        · refine ⟨fe, ?_, ?_⟩
          · rw [alookup_aset, if_pos rfl]
          · rw [hfeval]
            exact hk
      · rw [if_neg hk] at hmem
        obtain ⟨r, hr, hrk⟩ := (hInv.exact f hf hu k id1).mp hmem
        refine ⟨r, ?_, hrk⟩
        rw [alookup_aset]
        have : ¬ id = id1 := by
          intro hh
          subst hh
          rw [hfresh] at hr
          cases hr
        rw [if_neg this]
        exact hr
    · rintro ⟨r, hr, hrk⟩
      rw [alookup_aset] at hr
      by_cases h : id = id1
      · subst h
        rw [if_pos rfl] at hr
        cases hr
        rw [hfeval] at hrk
        rw [if_pos hrk, newBucketIns, hu, Bool.false_and, if_neg Bool.false_ne_true]
        rw [List.mem_append, List.mem_singleton]
        exact Or.inr rfl
      · rw [if_neg h] at hr
        have hmem : id1 ∈ bucketK b f k := (hInv.exact f hf hu k id1).mpr ⟨r, hr, hrk⟩
        by_cases hk : toKey (getField entry f) = k
        · rw [if_pos hk, newBucketIns, hu, Bool.false_and, if_neg Bool.false_ne_true]
          rw [List.mem_append]
          exact Or.inl hmem
        · rw [if_neg hk]
          exact hmem
  · intro f hf hu k hknull
    rw [hb2bk f k, if_pos hf]
    by_cases hk : toKey (getField entry f) = k
    · rw [if_pos hk]
      have hnn : getField entry f ≠ .null := by
        intro hh
        apply hknull
        rw [← hk, hh]
        rfl
      have hje : jsEq (getField entry f) .null = false := by
        cases hj : jsEq (getField entry f) .null
        · rfl
        · exact absurd ((jsEq_null_iff _).mp hj) hnn
      rw [newBucketIns, hu, hje]
      simp
    · rw [if_neg hk]
      exact hInv.uniqlen f hf hu k hknull

theorem getField_aset_self (k : String) (v : JSVal) (r : Rec) :
    getField (aset k v r) k = v := by
  rw [getField, alookup_aset, if_pos rfl, Option.getD_some]

theorem getField_aset_ne (k f : String) (v : JSVal) (r : Rec) (h : f ≠ k) :
    getField (aset k v r) f = getField r f := by
  rw [getField, alookup_aset, if_neg (fun hh => h hh.symm), getField]

theorem primRec_aset (k : String) (v : JSVal) (r : Rec) (hr : primRec r = true)
    (hv : isPrim v = true) : primRec (aset k v r) = true := by
  rw [primRec, List.all_eq_true]
  intro kv hkv
  rcases mem_aset k v r kv hkv with h | h
  · rw [h]
    exact hv
  · exact primRec_mem r hr kv h

theorem insert_shape (t : Table) (tx : Tx) (b : Branch) (entry : Rec) (res : Branch × Rec)
    (hnd : t.getIndexedFields.Nodup)
    (hstep : t.insert tx b entry = some res) :
    ∃ userId : Option Int,
      (match alookup t.idAttribute entry with
       | none => userId = none
       | some (.num n) => userId = some n
       | some .undefined => userId = none
       | some _ => False) ∧
      res.2 = (if (alookup t.idAttribute entry).isSome then entry
               else aset t.idAttribute (.num (idSequencer (t.getMaxId b) userId).2) entry) ∧
      res.1.items = b.items ++ [(idSequencer (t.getMaxId b) userId).2] ∧
      res.1.itemsById = aset (idSequencer (t.getMaxId b) userId).2 res.2 b.itemsById ∧
      res.1.meta = aset "maxId" (idSequencer (t.getMaxId b) userId).1 b.meta ∧
      ∀ (f1 : String) (k1 : IKey),
        bucketK res.1 f1 k1 =
          if f1 ∈ t.getIndexedFields then
            (if toKey (getField entry f1) = k1 then
              newBucketIns (t.fieldOptsOf f1) (bucketK b f1 k1)
                (idSequencer (t.getMaxId b) userId).2 (getField entry f1)
             else bucketK b f1 k1)
          else bucketK b f1 k1 := by
  unfold Table.insert at hstep
  cases hl : alookup t.idAttribute entry with
  | none =>
    simp only [hl, getField, Option.getD_none, Option.isSome_none, Bool.false_eq_true,
      if_false] at hstep
    refine ⟨none, rfl, ?_⟩
    cases hstep
    refine ⟨rfl, ?_, ?_, ?_, ?_⟩
    · show (t.insertIndexLoop tx _ entry t.getIndexedFields _).items ++ _ = _
      rw [(insertIndexLoop_items t tx _ entry t.getIndexedFields _).1]
      rfl
    · show aset _ _ (t.insertIndexLoop tx _ entry t.getIndexedFields _).itemsById = _
      rw [(insertIndexLoop_items t tx _ entry t.getIndexedFields _).2.1]
      rfl
    · show (t.insertIndexLoop tx _ entry t.getIndexedFields _).meta = _
      rw [(insertIndexLoop_items t tx _ entry t.getIndexedFields _).2.2]
      rfl
    · intro f1 k1
      show bucketK (t.insertIndexLoop tx _ entry t.getIndexedFields _) f1 k1 = _
      rw [insertIndexLoop_bucketK t tx _ entry t.getIndexedFields hnd _ f1 k1]
      rfl
  | some v =>
    cases v with
    | num n =>
      simp only [hl, getField, Option.getD_some, Option.isSome_some, if_true] at hstep
      refine ⟨some n, rfl, ?_⟩
      cases hstep
      refine ⟨rfl, ?_, ?_, ?_, ?_⟩
      · show (t.insertIndexLoop tx _ entry t.getIndexedFields _).items ++ _ = _
        rw [(insertIndexLoop_items t tx _ entry t.getIndexedFields _).1]
        rfl
      · show aset _ _ (t.insertIndexLoop tx _ entry t.getIndexedFields _).itemsById = _
        rw [(insertIndexLoop_items t tx _ entry t.getIndexedFields _).2.1]
        rfl
      · show (t.insertIndexLoop tx _ entry t.getIndexedFields _).meta = _
        rw [(insertIndexLoop_items t tx _ entry t.getIndexedFields _).2.2]
        rfl
      · intro f1 k1
        show bucketK (t.insertIndexLoop tx _ entry t.getIndexedFields _) f1 k1 = _
        rw [insertIndexLoop_bucketK t tx _ entry t.getIndexedFields hnd _ f1 k1]
        rfl
    | undefined =>
      simp only [hl, getField, Option.getD_some, Option.isSome_some, if_true] at hstep
      refine ⟨none, rfl, ?_⟩
      cases hstep
      refine ⟨rfl, ?_, ?_, ?_, ?_⟩
      · show (t.insertIndexLoop tx _ entry t.getIndexedFields _).items ++ _ = _
        rw [(insertIndexLoop_items t tx _ entry t.getIndexedFields _).1]
        rfl
      · show aset _ _ (t.insertIndexLoop tx _ entry t.getIndexedFields _).itemsById = _
        rw [(insertIndexLoop_items t tx _ entry t.getIndexedFields _).2.1]
        rfl
      · show (t.insertIndexLoop tx _ entry t.getIndexedFields _).meta = _
        rw [(insertIndexLoop_items t tx _ entry t.getIndexedFields _).2.2]
        rfl
      · intro f1 k1
        show bucketK (t.insertIndexLoop tx _ entry t.getIndexedFields _) f1 k1 = _
        rw [insertIndexLoop_bucketK t tx _ entry t.getIndexedFields hnd _ f1 k1]
        rfl
    | null =>
      simp only [hl, getField, Option.getD_some] at hstep
      cases hstep
    | obj fs =>
      simp only [hl, getField, Option.getD_some] at hstep
      cases hstep

theorem insert_inv (t : Table) (hwf : TWF t) (tx : Tx) (b : Branch) (entry : Rec)
    (hInv : TInv t b) (hv : t.validOp b (.insert entry) = true)
    (res : Branch × Rec) (hstep : t.insert tx b entry = some res) :
    TInv t res.1 := by
  obtain ⟨userId, hmatch, hfe, hitems, hmap, hmeta, hbk⟩ :=
    insert_shape t tx b entry res (getIndexedFields_nodup t hwf) hstep
  rw [Table.validOp, Bool.and_eq_true] at hv
  obtain ⟨hprim, hcase⟩ := hv
  cases hl : alookup t.idAttribute entry with
  | none =>
    rw [hl] at hmatch hfe
    subst hmatch
    have hseq : idSequencer (t.getMaxId b) none = (maxD t b + 1, maxD t b + 1) := rfl
    rw [hseq] at hfe hitems hmap hmeta hbk
    simp only [Option.isSome_none, Bool.false_eq_true, if_false] at hfe
    refine insert_core t hwf b entry (maxD t b + 1) (maxD t b + 1) res.2 res.1
      ?_ ?_ ?_ hInv ?_ ?_ le_rfl hitems hmap hmeta ?_
    · rw [hfe, getField_aset_self]
    · intro f hne
      rw [hfe, getField_aset_ne _ _ _ _ hne]
    · rw [hfe]
      exact primRec_aset _ _ _ hprim rfl
    · cases hx : alookup (maxD t b + 1) b.itemsById with
      | none => rfl
      | some r =>
        have hmem : (maxD t b + 1) ∈ b.items := (hInv.keys _).mpr (by rw [hx]; rfl)
        have := hInv.maxid _ hmem
        omega
    · intro i hi
      have := hInv.maxid i hi
      omega
    · intro f1 k1
      exact hbk f1 k1
  | some v =>
    cases v with
    | num n =>
      rw [hl] at hmatch hfe
      simp only [hl] at hcase
      subst hmatch
      have hseq : idSequencer (t.getMaxId b) (some n) = (max (maxD t b + 1) n, n) := rfl
      rw [hseq] at hfe hitems hmap hmeta hbk
      simp only [Option.isSome_some, if_true] at hfe
      have hnotex : t.idExists b n = false := by
        simpa using hcase
      refine insert_core t hwf b entry n (max (maxD t b + 1) n) res.2 res.1
        ?_ ?_ ?_ hInv ?_ ?_ (le_max_right _ _) hitems hmap hmeta ?_
      · rw [hfe, getField, hl, Option.getD_some]
      · intro f _
        rw [hfe]
      · rw [hfe]
        exact hprim
      · rw [Table.idExists] at hnotex
        cases hx : alookup n b.itemsById with
        | none => rfl
        | some r =>
          rw [hx] at hnotex
          cases hnotex
      · intro i hi
        have := hInv.maxid i hi
        have h2 : maxD t b ≤ max (maxD t b + 1) n := le_trans (by omega) (le_max_left _ _)
        omega
      · intro f1 k1
        exact hbk f1 k1
    | null =>
      simp only [hl] at hmatch
    | undefined =>
      rw [hl] at hcase
      simp at hcase
    | obj fs =>
      simp only [hl] at hmatch

/-! ### Update preservation -/

theorem updateMapLoop_char (t : Table) (mergeObj : Rec) :
    ∀ (rows : List Rec) (m m2 : List (Int × Rec)),
    t.updateMapLoop mergeObj rows m = some m2 →
    (rows.map (fun row => asId (getField row t.idAttribute))).Nodup →
    (∀ row ∈ rows, asId (getField (amerge mergeObj row) t.idAttribute) =
      asId (getField row t.idAttribute)) →
    (∀ id1 : Int, (∀ row ∈ rows, asId (getField row t.idAttribute) ≠ some id1) →
      alookup id1 m2 = alookup id1 m) ∧
    (∀ row ∈ rows, ∀ id1 : Int, asId (getField row t.idAttribute) = some id1 →
      alookup id1 m2 = some (amerge mergeObj row)) := by
  intro rows
  induction rows with
  | nil =>
    intro m m2 h _ _
    cases h
    exact ⟨fun _ _ => rfl, fun row hrow => absurd hrow (List.not_mem_nil row)⟩
  | cons row rest ih =>
    intro m m2 h hnd hstable
    rw [Table.updateMapLoop] at h
    cases hrid : asId (getField (amerge mergeObj row) t.idAttribute) with
    | none => simp only [hrid] at h; cases h
    | some rid =>
      simp only [hrid] at h
      have hrowid : asId (getField row t.idAttribute) = some rid := by
        rw [← hstable row (List.mem_cons_self row rest), hrid]
      rw [List.map_cons] at hnd
      rcases List.nodup_cons.mp hnd with ⟨hhead, htail⟩
      obtain ⟨ih1, ih2⟩ := ih (aset rid (amerge mergeObj row) m) m2 h htail
        (fun r hr => hstable r (List.mem_cons_of_mem row hr))
      constructor
      · intro id1 hnone
        have hne : rid ≠ id1 := by
          intro hh
          exact hnone row (List.mem_cons_self row rest) (hh ▸ hrowid)
        rw [ih1 id1 (fun r hr => hnone r (List.mem_cons_of_mem row hr)),
          alookup_aset, if_neg hne]
      · intro row1 hrow1 id1 hid1
        rcases List.mem_cons.mp hrow1 with rfl | hrow1
        · have : rid = id1 := by
            rw [hrowid] at hid1
            exact Option.some.inj hid1
          subst this
          rw [ih1 rid ?_, alookup_aset, if_pos rfl]
          intro r hr hcontra
          exact hhead (by
            rw [hrowid, ← hcontra]
            exact List.mem_map_of_mem _ hr)
        · exact ih2 row1 hrow1 id1 hid1

theorem updateIndexRows_frame (t : Table) (tx : Tx) (mergeObj : Rec) (o : FieldOpts)
    (f : String) :
    ∀ (rows : List Rec) (ws ws2 : Branch),
    t.updateIndexRows tx mergeObj o f rows ws = some ws2 →
    ws2.items = ws.items ∧ ws2.itemsById = ws.itemsById ∧ ws2.meta = ws.meta ∧
    ∀ f1, f1 ≠ f → ∀ k, bucketK ws2 f1 k = bucketK ws f1 k := by
  intro rows
  induction rows with
  | nil =>
    intro ws ws2 h
    cases h
    exact ⟨rfl, rfl, rfl, fun _ _ _ => rfl⟩
  | cons row rest ih =>
    intro ws ws2 h
    rw [Table.updateIndexRows] at h
    cases hrid : asId (getField row t.idAttribute) with
    | none => simp only [hrid] at h; cases h
    | some rid =>
      simp only [hrid] at h
      cases hdel : t.deleteFromIndex tx ws rid o f (getField row f) with
      | none => simp only [hdel] at h; cases h
      | some wsA =>
        simp only [hdel] at h
        cases hrid2 : asId (getField (amerge mergeObj row) t.idAttribute) with
        | none => simp only [hrid2] at h; cases h
        | some rid2 =>
          simp only [hrid2] at h
          obtain ⟨hdi, hdm, hdmeta, hdbk⟩ :=
            deleteFromIndex_eq t tx ws rid o f (getField row f) wsA hdel
          obtain ⟨ihi, ihm, ihmeta, ihbk⟩ := ih _ _ h
          refine ⟨?_, ?_, ?_, ?_⟩
          · rw [ihi, insertToIndex_items, hdi]
          · rw [ihm, insertToIndex_itemsById, hdm]
          · rw [ihmeta, insertToIndex_meta, hdmeta]
          · intro f1 hne k
            rw [ihbk f1 hne k, bucketK_insertToIndex,
              if_neg (fun hh => hne hh.symm), hdbk f1 k,
              if_neg (fun hh => hne hh.symm)]

theorem deleteIndexRows_frame (t : Table) (tx : Tx) (o : FieldOpts) (f : String) :
    ∀ (rows : List Rec) (ws ws2 : Branch),
    t.deleteIndexRows tx o f rows ws = some ws2 →
    ws2.items = ws.items ∧ ws2.itemsById = ws.itemsById ∧ ws2.meta = ws.meta ∧
    ∀ f1, f1 ≠ f → ∀ k, bucketK ws2 f1 k = bucketK ws f1 k := by
  intro rows
  induction rows with
  | nil =>
    intro ws ws2 h
    cases h
    exact ⟨rfl, rfl, rfl, fun _ _ _ => rfl⟩
  | cons row rest ih =>
    intro ws ws2 h
    rw [Table.deleteIndexRows] at h
    cases hrid : asId (getField row t.idAttribute) with
    | none => simp only [hrid] at h; cases h
    | some rid =>
      simp only [hrid] at h
      cases hdel : t.deleteFromIndex tx ws rid o f (getField row f) with
      | none => simp only [hdel] at h; cases h
      | some wsA =>
        simp only [hdel] at h
        obtain ⟨hdi, hdm, hdmeta, hdbk⟩ :=
          deleteFromIndex_eq t tx ws rid o f (getField row f) wsA hdel
        obtain ⟨ihi, ihm, ihmeta, ihbk⟩ := ih _ _ h
        refine ⟨?_, ?_, ?_, ?_⟩
        · rw [ihi, hdi]
        · rw [ihm, hdm]
        · rw [ihmeta, hdmeta]
        · intro f1 hne k
          rw [ihbk f1 hne k, hdbk f1 k, if_neg (fun hh => hne hh.symm)]

theorem deleteRowStep_mem (t : Table) (tx : Tx) (o : FieldOpts) (f : String)
    (hu : o.isUnique = false) (ws wsA : Branch) (rid : Int) (oldv : JSVal)
    (hdel : t.deleteFromIndex tx ws rid o f oldv = some wsA)
    (hsep : ∀ k, rid ∈ bucketK ws f k → k = toKey oldv) :
    ∀ (k : IKey) (id1 : Int),
      id1 ∈ bucketK wsA f k ↔ (¬ id1 = rid) ∧ id1 ∈ bucketK ws f k := by
  obtain ⟨_, _, _, hdbk⟩ := deleteFromIndex_eq t tx ws rid o f oldv wsA hdel
  intro k id1
  rw [hdbk f k, if_pos rfl]
  by_cases hk : toKey oldv = k
  · rw [if_pos hk, hu, Bool.false_and, if_neg Bool.false_ne_true]
    rw [List.mem_filter]
    constructor
    · rintro ⟨hm, hp⟩
      refine ⟨?_, hk ▸ hm⟩
      intro hh
      subst hh
      simp at hp
    · rintro ⟨hne, hm⟩
      exact ⟨hk ▸ hm, by simpa using hne⟩
  · rw [if_neg hk]
    constructor
    · intro hm
      refine ⟨?_, hm⟩
      intro hh
      subst hh
      exact hk (hsep k hm).symm
    · rintro ⟨_, hm⟩
      exact hm

theorem updateRowStep_mem (t : Table) (tx : Tx) (o : FieldOpts) (f : String)
    (hu : o.isUnique = false) (ws wsA : Branch) (rid : Int) (oldv newv : JSVal)
    (hdel : t.deleteFromIndex tx ws rid o f oldv = some wsA)
    (hsep : ∀ k, rid ∈ bucketK ws f k → k = toKey oldv) :
    ∀ (k : IKey) (id1 : Int),
      id1 ∈ bucketK (t.insertToIndex tx wsA rid o f newv) f k ↔
        (if id1 = rid then k = toKey newv else id1 ∈ bucketK ws f k) := by
  intro k id1
  have hstep := deleteRowStep_mem t tx o f hu ws wsA rid oldv hdel hsep
  rw [bucketK_insertToIndex, if_pos rfl]
  by_cases hk : toKey newv = k
  · rw [if_pos hk, newBucketIns, hu, Bool.false_and, if_neg Bool.false_ne_true]
    rw [List.mem_append, List.mem_singleton]
    by_cases hid : id1 = rid
    · subst hid
      rw [if_pos rfl]
      constructor
      · intro _
        exact hk.symm
      · intro _
        exact Or.inr rfl
    · rw [if_neg hid]
      constructor
      · intro hm
        rcases hm with hm | hm
        · exact hk ▸ ((hstep (toKey newv) id1).mp hm).2
        · exact absurd hm hid
      · intro hm
        exact Or.inl ((hstep (toKey newv) id1).mpr ⟨hid, hk ▸ hm⟩)
  · rw [if_neg hk]
    by_cases hid : id1 = rid
    · subst hid
      rw [if_pos rfl]
      constructor
      · intro hm
        exact absurd ((hstep k id1).mp hm).1 (by simp)
      · intro hm
        exact absurd hm.symm hk
    · rw [if_neg hid]
      constructor
      · intro hm
        exact ((hstep k id1).mp hm).2
      · intro hm
        exact (hstep k id1).mpr ⟨hid, hm⟩

theorem updateIndexRows_mem (t : Table) (tx : Tx) (mergeObj : Rec) (o : FieldOpts)
    (f : String) (hu : o.isUnique = false) :
    ∀ (rows : List Rec) (ws ws2 : Branch),
    t.updateIndexRows tx mergeObj o f rows ws = some ws2 →
    (∀ row ∈ rows, ∀ rid : Int, asId (getField row t.idAttribute) = some rid →
       ∀ k, rid ∈ bucketK ws f k → k = toKey (getField row f)) →
    (∀ row ∈ rows, asId (getField (amerge mergeObj row) t.idAttribute) =
       asId (getField row t.idAttribute)) →
    (rows.map (fun row => asId (getField row t.idAttribute))).Nodup →
    ∀ (k : IKey) (id1 : Int),
      id1 ∈ bucketK ws2 f k ↔
        ((∃ row ∈ rows, asId (getField row t.idAttribute) = some id1 ∧
            k = toKey (getField (amerge mergeObj row) f)) ∨
         ((∀ row ∈ rows, asId (getField row t.idAttribute) ≠ some id1) ∧
            id1 ∈ bucketK ws f k)) := by
  intro rows
  induction rows with
  | nil =>
    intro ws ws2 h _ _ _ k id1
    cases h
    simp
  | cons row rest ih =>
    intro ws ws2 h hsep hstable hnd k id1
    rw [Table.updateIndexRows] at h
    cases hrid : asId (getField row t.idAttribute) with
    | none => simp only [hrid] at h; cases h
    | some rid =>
      simp only [hrid] at h
      cases hdel : t.deleteFromIndex tx ws rid o f (getField row f) with
      | none => simp only [hdel] at h; cases h
      | some wsA =>
        simp only [hdel] at h
        have hrid2 : asId (getField (amerge mergeObj row) t.idAttribute) = some rid := by
          rw [hstable row (List.mem_cons_self row rest), hrid]
        simp only [hrid2] at h
        rw [List.map_cons, hrid] at hnd
        rcases List.nodup_cons.mp hnd with ⟨hhead, htail⟩
        have hstep := updateRowStep_mem t tx o f hu ws wsA rid (getField row f)
          (getField (amerge mergeObj row) f) hdel
          (hsep row (List.mem_cons_self row rest) rid hrid)
        have hsep2 : ∀ row1 ∈ rest, ∀ rid1 : Int,
            asId (getField row1 t.idAttribute) = some rid1 →
            ∀ k1, rid1 ∈ bucketK (t.insertToIndex tx wsA rid o f
              (getField (amerge mergeObj row) f)) f k1 →
            k1 = toKey (getField row1 f) := by
          intro row1 hrow1 rid1 hrid1 k1 hmem
          have hne : ¬ rid1 = rid := by
            intro hh
            subst hh
            exact hhead (hrid1 ▸ List.mem_map_of_mem _ hrow1)
          rw [hstep k1 rid1, if_neg hne] at hmem
          exact hsep row1 (List.mem_cons_of_mem row hrow1) rid1 hrid1 k1 hmem
        have ihconc := ih _ _ h hsep2
          (fun r hr => hstable r (List.mem_cons_of_mem row hr)) htail k id1
        rw [ihconc]
        by_cases hid : id1 = rid
        · subst hid
          have hnoRest : ∀ row1 ∈ rest, asId (getField row1 t.idAttribute) ≠ some id1 := by
            intro row1 hrow1 hcontra
            exact hhead (hcontra ▸ List.mem_map_of_mem _ hrow1)
          constructor
          · intro hm
            rcases hm with ⟨row1, hrow1, hid1, hk1⟩ | ⟨_, hmem⟩
            · exact absurd hid1 (hnoRest row1 hrow1)
            · rw [hstep k id1, if_pos rfl] at hmem
              exact Or.inl ⟨row, List.mem_cons_self row rest, hrid, hmem⟩
          · intro hm
            rcases hm with ⟨row1, hrow1, hid1, hk1⟩ | ⟨hno, _⟩
            · rcases List.mem_cons.mp hrow1 with rfl | hrow1
              · refine Or.inr ⟨hnoRest, ?_⟩
                rw [hstep k id1, if_pos rfl]
                exact hk1
              · exact absurd hid1 (hnoRest row1 hrow1)
            · exact absurd hrid (hno row (List.mem_cons_self row rest))
        · have hmemB : id1 ∈ bucketK (t.insertToIndex tx wsA rid o f
              (getField (amerge mergeObj row) f)) f k ↔ id1 ∈ bucketK ws f k := by
            rw [hstep k id1, if_neg hid]
          constructor
          · intro hm
            rcases hm with ⟨row1, hrow1, hid1, hk1⟩ | ⟨hno, hmem⟩
            · exact Or.inl ⟨row1, List.mem_cons_of_mem row hrow1, hid1, hk1⟩
            · refine Or.inr ⟨?_, hmemB.mp hmem⟩
              intro row1 hrow1
              rcases List.mem_cons.mp hrow1 with rfl | hrow1
              · rw [hrid]
                intro hc
                exact hid (Option.some.inj hc).symm
              · exact hno row1 hrow1
          · intro hm
            rcases hm with ⟨row1, hrow1, hid1, hk1⟩ | ⟨hno, hmem⟩
            · rcases List.mem_cons.mp hrow1 with rfl | hrow1
              · rw [hrid] at hid1
                exact absurd (Option.some.inj hid1).symm hid
              · exact Or.inl ⟨row1, hrow1, hid1, hk1⟩
            · exact Or.inr ⟨fun row1 hrow1 => hno row1 (List.mem_cons_of_mem row hrow1),
                hmemB.mpr hmem⟩

theorem deleteIndexRows_mem (t : Table) (tx : Tx) (o : FieldOpts)
    (f : String) (hu : o.isUnique = false) :
    ∀ (rows : List Rec) (ws ws2 : Branch),
    t.deleteIndexRows tx o f rows ws = some ws2 →
    (∀ row ∈ rows, ∀ rid : Int, asId (getField row t.idAttribute) = some rid →
       ∀ k, rid ∈ bucketK ws f k → k = toKey (getField row f)) →
    (rows.map (fun row => asId (getField row t.idAttribute))).Nodup →
    ∀ (k : IKey) (id1 : Int),
      id1 ∈ bucketK ws2 f k ↔
        ((∀ row ∈ rows, asId (getField row t.idAttribute) ≠ some id1) ∧
         id1 ∈ bucketK ws f k) := by
  intro rows
  induction rows with
  | nil =>
    intro ws ws2 h _ _ k id1
    cases h
    simp
  | cons row rest ih =>
    intro ws ws2 h hsep hnd k id1
    rw [Table.deleteIndexRows] at h
    cases hrid : asId (getField row t.idAttribute) with
    | none => simp only [hrid] at h; cases h
    | some rid =>
      simp only [hrid] at h
      cases hdel : t.deleteFromIndex tx ws rid o f (getField row f) with
      | none => simp only [hdel] at h; cases h
      | some wsA =>
        simp only [hdel] at h
        rw [List.map_cons, hrid] at hnd
        rcases List.nodup_cons.mp hnd with ⟨hhead, htail⟩
        have hstep := deleteRowStep_mem t tx o f hu ws wsA rid (getField row f) hdel
          (hsep row (List.mem_cons_self row rest) rid hrid)
        have hsep2 : ∀ row1 ∈ rest, ∀ rid1 : Int,
            asId (getField row1 t.idAttribute) = some rid1 →
            ∀ k1, rid1 ∈ bucketK wsA f k1 → k1 = toKey (getField row1 f) := by
          intro row1 hrow1 rid1 hrid1 k1 hmem
          exact hsep row1 (List.mem_cons_of_mem row hrow1) rid1 hrid1 k1
            ((hstep k1 rid1).mp hmem).2
        have ihconc := ih _ _ h hsep2 htail k id1
        rw [ihconc]
        constructor
        · rintro ⟨hno, hmem⟩
          obtain ⟨hne, hmem2⟩ := (hstep k id1).mp hmem
          refine ⟨?_, hmem2⟩
          intro row1 hrow1
          rcases List.mem_cons.mp hrow1 with rfl | hrow1
          · rw [hrid]
            intro hc
            exact hne (Option.some.inj hc).symm
          · exact hno row1 hrow1
        · rintro ⟨hno, hmem⟩
          have hne : ¬ id1 = rid := by
            intro hh
            exact hno row (List.mem_cons_self row rest) (by rw [hrid, hh])
          exact ⟨fun row1 hrow1 => hno row1 (List.mem_cons_of_mem row hrow1),
            (hstep k id1).mpr ⟨hne, hmem⟩⟩

theorem newBucketIns_uniq_len (o : FieldOpts) (old : List Int) (id : Int) (v : JSVal)
    (hu : o.isUnique = true) (hv : v ≠ .null) :
    newBucketIns o old id v = [id] := by
  rw [newBucketIns, hu]
  have : jsEq v .null = false := by
    cases hj : jsEq v .null
    · rfl
    · exact absurd ((jsEq_null_iff v).mp hj) hv
  rw [this]
  rfl

theorem insertToIndex_uniqlen (t : Table) (tx : Tx) (ws : Branch) (rid : Int)
    (o : FieldOpts) (f : String) (v : JSVal) (hu : o.isUnique = true)
    (hlen : ∀ k : IKey, k ≠ .knull → (bucketK ws f k).length ≤ 1) :
    ∀ k : IKey, k ≠ .knull → (bucketK (t.insertToIndex tx ws rid o f v) f k).length ≤ 1 := by
  intro k hk
  rw [bucketK_insertToIndex, if_pos rfl]
  by_cases hkey : toKey v = k
  · rw [if_pos hkey]
    have hv : v ≠ .null := by
      intro hh
      subst hh
      exact hk (hkey.symm ▸ rfl)
    rw [newBucketIns_uniq_len o _ rid v hu hv]
    simp
  · rw [if_neg hkey]
    exact hlen k hk

theorem deleteFromIndex_uniqlen (t : Table) (tx : Tx) (ws wsA : Branch) (rid : Int)
    (o : FieldOpts) (f : String) (v : JSVal)
    (hdel : t.deleteFromIndex tx ws rid o f v = some wsA)
    (hlen : ∀ k : IKey, k ≠ .knull → (bucketK ws f k).length ≤ 1) :
    ∀ k : IKey, k ≠ .knull → (bucketK wsA f k).length ≤ 1 := by
  obtain ⟨_, _, _, hdbk⟩ := deleteFromIndex_eq t tx ws rid o f v wsA hdel
  intro k hk
  rw [hdbk f k, if_pos rfl]
  by_cases hkey : toKey v = k
  · rw [if_pos hkey]
    by_cases hcond : (o.isUnique && !(jsEq v .null)) = true
    · rw [if_pos hcond]
      simp
    · rw [if_neg hcond]
      calc ((bucketK ws f (toKey v)).filter (fun i => i != rid)).length
          ≤ (bucketK ws f (toKey v)).length := List.length_filter_le _ _
        _ ≤ 1 := hkey ▸ hlen k hk
  · rw [if_neg hkey]
    exact hlen k hk

theorem updateIndexRows_uniqlen (t : Table) (tx : Tx) (mergeObj : Rec) (o : FieldOpts)
    (f : String) (hu : o.isUnique = true) :
    ∀ (rows : List Rec) (ws ws2 : Branch),
    t.updateIndexRows tx mergeObj o f rows ws = some ws2 →
    (∀ k : IKey, k ≠ .knull → (bucketK ws f k).length ≤ 1) →
    ∀ k : IKey, k ≠ .knull → (bucketK ws2 f k).length ≤ 1 := by
  intro rows
  induction rows with
  | nil =>
    intro ws ws2 h hlen
    cases h
    exact hlen
  | cons row rest ih =>
    intro ws ws2 h hlen
    rw [Table.updateIndexRows] at h
    cases hrid : asId (getField row t.idAttribute) with
    | none => simp only [hrid] at h; cases h
    | some rid =>
      simp only [hrid] at h
      cases hdel : t.deleteFromIndex tx ws rid o f (getField row f) with
      | none => simp only [hdel] at h; cases h
      | some wsA =>
        simp only [hdel] at h
        cases hrid2 : asId (getField (amerge mergeObj row) t.idAttribute) with
        | none => simp only [hrid2] at h; cases h
        | some rid2 =>
          simp only [hrid2] at h
          exact ih _ _ h
            (insertToIndex_uniqlen t tx wsA rid2 o f _ hu
              (deleteFromIndex_uniqlen t tx ws wsA rid o f _ hdel hlen))

theorem deleteIndexRows_uniqlen (t : Table) (tx : Tx) (o : FieldOpts)
    (f : String) (hu : o.isUnique = true) :
    ∀ (rows : List Rec) (ws ws2 : Branch),
    t.deleteIndexRows tx o f rows ws = some ws2 →
    (∀ k : IKey, k ≠ .knull → (bucketK ws f k).length ≤ 1) →
    ∀ k : IKey, k ≠ .knull → (bucketK ws2 f k).length ≤ 1 := by
  intro rows
  induction rows with
  | nil =>
    intro ws ws2 h hlen
    cases h
    exact hlen
  | cons row rest ih =>
    intro ws ws2 h hlen
    rw [Table.deleteIndexRows] at h
    cases hrid : asId (getField row t.idAttribute) with
    | none => simp only [hrid] at h; cases h
    | some rid =>
      simp only [hrid] at h
      cases hdel : t.deleteFromIndex tx ws rid o f (getField row f) with
      | none => simp only [hdel] at h; cases h
      | some wsA =>
        simp only [hdel] at h
        exact ih _ _ h (deleteFromIndex_uniqlen t tx ws wsA rid o f _ hdel hlen)

theorem updateIndexFields_props (t : Table) (tx : Tx) (mergeObj : Rec) (rows : List Rec) :
    ∀ (fs : List String) (ws ws2 : Branch),
    t.updateIndexFields tx mergeObj rows fs ws = some ws2 →
    fs.Nodup →
    ws2.items = ws.items ∧ ws2.itemsById = ws.itemsById ∧ ws2.meta = ws.meta ∧
    (∀ f1, f1 ∉ fs → ∀ k, bucketK ws2 f1 k = bucketK ws f1 k) ∧
    (∀ f1 ∈ fs, (t.fieldOptsOf f1).isUnique = false →
      (∀ row ∈ rows, ∀ rid : Int, asId (getField row t.idAttribute) = some rid →
        ∀ k, rid ∈ bucketK ws f1 k → k = toKey (getField row f1)) →
      (∀ row ∈ rows, asId (getField (amerge mergeObj row) t.idAttribute) =
        asId (getField row t.idAttribute)) →
      (rows.map (fun row => asId (getField row t.idAttribute))).Nodup →
      ∀ (k : IKey) (id1 : Int),
        id1 ∈ bucketK ws2 f1 k ↔
          ((∃ row ∈ rows, asId (getField row t.idAttribute) = some id1 ∧
              k = toKey (getField (amerge mergeObj row) f1)) ∨
           ((∀ row ∈ rows, asId (getField row t.idAttribute) ≠ some id1) ∧
              id1 ∈ bucketK ws f1 k))) ∧
    (∀ f1 ∈ fs, (t.fieldOptsOf f1).isUnique = true →
      (∀ k : IKey, k ≠ .knull → (bucketK ws f1 k).length ≤ 1) →
      ∀ k : IKey, k ≠ .knull → (bucketK ws2 f1 k).length ≤ 1) := by
  intro fs
  induction fs with
  | nil =>
    intro ws ws2 h _
    cases h
    exact ⟨rfl, rfl, rfl, fun _ _ _ => rfl,
      fun f1 hf1 => absurd hf1 (List.not_mem_nil f1),
      fun f1 hf1 => absurd hf1 (List.not_mem_nil f1)⟩
  | cons f rest ih =>
    intro ws ws2 h hnd
    rcases List.nodup_cons.mp hnd with ⟨hf, hrest⟩
    rw [Table.updateIndexFields] at h
    cases hrows : t.updateIndexRows tx mergeObj (t.fieldOptsOf f) f rows ws with
    | none => simp only [hrows] at h; cases h
    | some wsA =>
      simp only [hrows] at h
      obtain ⟨hri, hrm, hrmeta, hrbk⟩ :=
        updateIndexRows_frame t tx mergeObj (t.fieldOptsOf f) f rows ws wsA hrows
      obtain ⟨ihi, ihm, ihmeta, ihframe, ihmem, ihuniq⟩ := ih wsA ws2 h hrest
      refine ⟨by rw [ihi, hri], by rw [ihm, hrm], by rw [ihmeta, hrmeta], ?_, ?_, ?_⟩
      · intro f1 hf1 k
        have hne : f1 ≠ f := fun hh => hf1 (hh ▸ List.mem_cons_self f rest)
        have hnin : f1 ∉ rest := fun hh => hf1 (List.mem_cons_of_mem f hh)
        rw [ihframe f1 hnin k, hrbk f1 hne k]
      · intro f1 hf1 huniq hsep hstable hndrows k id1
        rcases List.mem_cons.mp hf1 with rfl | hf1
        · have hnin : f1 ∉ rest := hf
          rw [ihframe f1 hnin k]
          exact updateIndexRows_mem t tx mergeObj (t.fieldOptsOf f1) f1 huniq rows ws wsA
            hrows hsep hstable hndrows k id1
        · have hne : f1 ≠ f := fun hh => hf (hh ▸ hf1)
          have hsepA : ∀ row ∈ rows, ∀ rid : Int,
              asId (getField row t.idAttribute) = some rid →
              ∀ k1, rid ∈ bucketK wsA f1 k1 → k1 = toKey (getField row f1) := by
            intro row hrow rid hrid k1 hmem
            rw [hrbk f1 hne k1] at hmem
            exact hsep row hrow rid hrid k1 hmem
          have := ihmem f1 hf1 huniq hsepA hstable hndrows k id1
          rw [hrbk f1 hne k] at this
          exact this
      · intro f1 hf1 huniq hlen k hk
        rcases List.mem_cons.mp hf1 with rfl | hf1
        · have hnin : f1 ∉ rest := hf
          rw [ihframe f1 hnin k]
          exact updateIndexRows_uniqlen t tx mergeObj (t.fieldOptsOf f1) f1 huniq rows ws wsA
            hrows hlen k hk
        · have hne : f1 ≠ f := fun hh => hf (hh ▸ hf1)
          refine ihuniq f1 hf1 huniq ?_ k hk
          intro k1 hk1
          rw [hrbk f1 hne k1]
          exact hlen k1 hk1

theorem deleteIndexFields_props (t : Table) (tx : Tx) (rows : List Rec) :
    ∀ (fs : List String) (ws ws2 : Branch),
    t.deleteIndexFields tx rows fs ws = some ws2 →
    fs.Nodup →
    ws2.items = ws.items ∧ ws2.itemsById = ws.itemsById ∧ ws2.meta = ws.meta ∧
    (∀ f1, f1 ∉ fs → ∀ k, bucketK ws2 f1 k = bucketK ws f1 k) ∧
    (∀ f1 ∈ fs, (t.fieldOptsOf f1).isUnique = false →
      (∀ row ∈ rows, ∀ rid : Int, asId (getField row t.idAttribute) = some rid →
        ∀ k, rid ∈ bucketK ws f1 k → k = toKey (getField row f1)) →
      (rows.map (fun row => asId (getField row t.idAttribute))).Nodup →
      ∀ (k : IKey) (id1 : Int),
        id1 ∈ bucketK ws2 f1 k ↔
          ((∀ row ∈ rows, asId (getField row t.idAttribute) ≠ some id1) ∧
             id1 ∈ bucketK ws f1 k)) ∧
    (∀ f1 ∈ fs, (t.fieldOptsOf f1).isUnique = true →
      (∀ k : IKey, k ≠ .knull → (bucketK ws f1 k).length ≤ 1) →
      ∀ k : IKey, k ≠ .knull → (bucketK ws2 f1 k).length ≤ 1) := by
  intro fs
  induction fs with
  | nil =>
    intro ws ws2 h _
    cases h
    exact ⟨rfl, rfl, rfl, fun _ _ _ => rfl,
      fun f1 hf1 => absurd hf1 (List.not_mem_nil f1),
      fun f1 hf1 => absurd hf1 (List.not_mem_nil f1)⟩
  | cons f rest ih =>
    intro ws ws2 h hnd
    rcases List.nodup_cons.mp hnd with ⟨hf, hrest⟩
    rw [Table.deleteIndexFields] at h
    cases hrows : t.deleteIndexRows tx (t.fieldOptsOf f) f rows ws with
    | none => simp only [hrows] at h; cases h
    | some wsA =>
      simp only [hrows] at h
      obtain ⟨hri, hrm, hrmeta, hrbk⟩ :=
        deleteIndexRows_frame t tx (t.fieldOptsOf f) f rows ws wsA hrows
      obtain ⟨ihi, ihm, ihmeta, ihframe, ihmem, ihuniq⟩ := ih wsA ws2 h hrest
      refine ⟨by rw [ihi, hri], by rw [ihm, hrm], by rw [ihmeta, hrmeta], ?_, ?_, ?_⟩
      · intro f1 hf1 k
        have hne : f1 ≠ f := fun hh => hf1 (hh ▸ List.mem_cons_self f rest)
        have hnin : f1 ∉ rest := fun hh => hf1 (List.mem_cons_of_mem f hh)
        rw [ihframe f1 hnin k, hrbk f1 hne k]
      · intro f1 hf1 huniq hsep hndrows k id1
        rcases List.mem_cons.mp hf1 with rfl | hf1
        · have hnin : f1 ∉ rest := hf
          rw [ihframe f1 hnin k]
          exact deleteIndexRows_mem t tx (t.fieldOptsOf f1) f1 huniq rows ws wsA
            hrows hsep hndrows k id1
        · have hne : f1 ≠ f := fun hh => hf (hh ▸ hf1)
          have hsepA : ∀ row ∈ rows, ∀ rid : Int,
              asId (getField row t.idAttribute) = some rid →
              ∀ k1, rid ∈ bucketK wsA f1 k1 → k1 = toKey (getField row f1) := by
            intro row hrow rid hrid k1 hmem
            rw [hrbk f1 hne k1] at hmem
            exact hsep row hrow rid hrid k1 hmem
          have := ihmem f1 hf1 huniq hsepA hndrows k id1
          rw [hrbk f1 hne k] at this
          exact this
      · intro f1 hf1 huniq hlen k hk
        rcases List.mem_cons.mp hf1 with rfl | hf1
        · have hnin : f1 ∉ rest := hf
          rw [ihframe f1 hnin k]
          exact deleteIndexRows_uniqlen t tx (t.fieldOptsOf f1) f1 huniq rows ws wsA
            hrows hlen k hk
        · have hne : f1 ≠ f := fun hh => hf (hh ▸ hf1)
          refine ihuniq f1 hf1 huniq ?_ k hk
          intro k1 hk1
          rw [hrbk f1 hne k1]
          exact hlen k1 hk1

theorem getField_amerge_none (src tgt : Rec) (k : String)
    (h : alookup k src = none) : getField (amerge src tgt) k = getField tgt k := by
  rw [getField, amerge_alookup_none src tgt k h, getField]

theorem recordsOf_char (t : Table) (b : Branch) :
    ∀ (ids : List Int) (rows : List Rec), t.recordsOf b ids = some rows →
    List.Forall₂ (fun i row => alookup i b.itemsById = some row) ids rows := by
  intro ids
  induction ids with
  | nil =>
    intro rows h
    cases h
    exact List.Forall₂.nil
  | cons i rest ih =>
    intro rows h
    rw [Table.recordsOf] at h
    cases hacc : t.accessId b i with
    | none => simp only [hacc] at h; cases h
    | some r =>
      simp only [hacc] at h
      cases hrec : t.recordsOf b rest with
      | none => simp only [hrec] at h; cases h
      | some rs =>
        simp only [hrec] at h
        cases h
        exact List.Forall₂.cons hacc (ih rs hrec)

theorem recordsOf_rowids (t : Table) (b : Branch) (hInv : TInv t b) :
    ∀ (ids : List Int) (rows : List Rec), t.recordsOf b ids = some rows →
    rows.map (fun row => asId (getField row t.idAttribute)) = ids.map some := by
  intro ids rows h
  have hf := recordsOf_char t b ids rows h
  clear h
  induction hf with
  | nil => rfl
  | cons hrel _ ih =>
    rw [List.map_cons, List.map_cons, ih]
    congr 1
    rw [hInv.idfield _ _ hrel]
    rfl

theorem recordsOf_mem (t : Table) (b : Branch) :
    ∀ (ids : List Int) (rows : List Rec), t.recordsOf b ids = some rows →
    ∀ row ∈ rows, ∃ i ∈ ids, alookup i b.itemsById = some row := by
  intro ids rows h
  have hf := recordsOf_char t b ids rows h
  clear h
  induction hf with
  | nil => intro row hrow; cases hrow
  | cons hrel _ ih =>
    intro row hrow
    rcases List.mem_cons.mp hrow with rfl | hrow
    · exact ⟨_, List.mem_cons_self _ _, hrel⟩
    · obtain ⟨i, hi, hl⟩ := ih row hrow
      exact ⟨i, List.mem_cons_of_mem _ hi, hl⟩

theorem asId_some_iff (v : JSVal) (n : Int) : asId v = some n ↔ v = .num n := by
  cases v <;> simp [asId]

theorem update_inv (t : Table) (hwf : TWF t) (tx : Tx)
    (hcow : tx.withMutations = false) (b : Branch)
    (ids : List Int) (mergeObj : Rec) (rows : List Rec) (b2 : Branch)
    (hInv : TInv t b)
    (hrows : t.recordsOf b ids = some rows)
    (hv : t.validOp b (.update ids mergeObj) = true)
    (hupd : t.update tx b rows mergeObj = some b2) :
    TInv t b2 := by
  simp only [Table.validOp, Bool.and_eq_true] at hv
  obtain ⟨⟨⟨hall, hnd0⟩, hprimM⟩, hnoid0⟩ := hv
  have hidsnd : ids.Nodup := by simpa using hnd0
  have hnoid : alookup t.idAttribute mergeObj = none := by
    cases hx : alookup t.idAttribute mergeObj with
    | none => rfl
    | some v => rw [hx] at hnoid0; simp at hnoid0
  rw [Table.update] at hupd
  cases hml : t.updateMapLoop mergeObj rows b.itemsById with
  | none => simp only [hml] at hupd; cases hupd
  | some newMap =>
    simp only [hml] at hupd
    simp only [hcow, Bool.false_eq_true, if_false] at hupd
    have hrowids : rows.map (fun row => asId (getField row t.idAttribute)) = ids.map some :=
      recordsOf_rowids t b hInv ids rows hrows
    have hndrows : (rows.map (fun row => asId (getField row t.idAttribute))).Nodup := by
      rw [hrowids]
      exact hidsnd.map (fun a b h => Option.some.inj h)
    have hstable : ∀ row ∈ rows,
        asId (getField (amerge mergeObj row) t.idAttribute) =
          asId (getField row t.idAttribute) := by
      intro row _
      rw [getField_amerge_none mergeObj row t.idAttribute hnoid]
    obtain ⟨hch1, hch2⟩ := updateMapLoop_char t mergeObj rows b.itemsById newMap hml
      hndrows hstable
    have hexid : ∀ id1 : Int,
        (∃ row ∈ rows, asId (getField row t.idAttribute) = some id1) ↔ id1 ∈ ids := by
      intro id1
      constructor
      · rintro ⟨row, hrow, hasid⟩
        have : some id1 ∈ ids.map some := by
          rw [← hrowids]
          exact hasid ▸ List.mem_map_of_mem _ hrow
        simpa using this
      · intro hid1
        have : some id1 ∈ rows.map (fun row => asId (getField row t.idAttribute)) := by
          rw [hrowids]
          exact List.mem_map_of_mem _ hid1
        obtain ⟨row, hrow, hasid⟩ := List.mem_map.mp this
        exact ⟨row, hrow, hasid⟩
    have hsep : ∀ f1 ∈ t.getIndexedFields, (t.fieldOptsOf f1).isUnique = false →
        ∀ row ∈ rows, ∀ rid : Int,
        asId (getField row t.idAttribute) = some rid →
        ∀ k, rid ∈ bucketK b f1 k → k = toKey (getField row f1) := by
      intro f1 hf1 huq row hrow rid hrid k hmem
      obtain ⟨i, _, hl⟩ := recordsOf_mem t b ids rows hrows row hrow
      have hrowid : getField row t.idAttribute = .num i := hInv.idfield i row hl
      have hri : rid = i := by
        rw [hrowid] at hrid
        exact (Option.some.inj ((asId_some_iff (JSVal.num i) rid).mpr
          ((asId_some_iff _ _).mp hrid ▸ rfl) ▸ hrid)).symm
      subst hri
      obtain ⟨r, hr, hrk⟩ := (hInv.exact f1 hf1 huq k rid).mp hmem
      rw [hl] at hr
      cases hr
      exact hrk.symm
    obtain ⟨hbi, hbm, hbmeta, _, hbmem, hbuniq⟩ :=
      updateIndexFields_props t tx mergeObj rows t.getIndexedFields
        { b with itemsById := newMap } b2 hupd (getIndexedFields_nodup t hwf)
    have hb2i : b2.items = b.items := hbi
    have hb2m : b2.itemsById = newMap := hbm
    have hb2meta : b2.meta = b.meta := hbmeta
    have hmemid : ∀ id1 : Int, id1 ∈ ids →
        ∃ row ∈ rows, asId (getField row t.idAttribute) = some id1 :=
      fun id1 h => (hexid id1).mpr h
    refine ⟨?_, ?_, ?_, ?_, ?_, ?_, ?_⟩
    · rw [hb2i]
      exact hInv.nodup
    · intro id1
      rw [hb2i, hb2m]
      by_cases hex : ∃ row ∈ rows, asId (getField row t.idAttribute) = some id1
      · obtain ⟨row, hrow, hasid⟩ := hex
        rw [hch2 row hrow id1 hasid]
        have hid1 : id1 ∈ ids := (hexid id1).mp ⟨row, hrow, hasid⟩
        have : t.idExists b id1 = true := List.all_eq_true.mp hall id1 hid1
        rw [Table.idExists] at this
        constructor
        · intro _
          rfl
        · intro _
          exact (hInv.keys id1).mpr this
      · rw [hch1 id1 (fun row hrow hc => hex ⟨row, hrow, hc⟩)]
        exact hInv.keys id1
    · intro id1 r hr
      rw [hb2m] at hr
      by_cases hex : ∃ row ∈ rows, asId (getField row t.idAttribute) = some id1
      · obtain ⟨row, hrow, hasid⟩ := hex
        rw [hch2 row hrow id1 hasid] at hr
        cases hr
        rw [getField_amerge_none mergeObj row t.idAttribute hnoid]
        exact (asId_some_iff _ _).mp hasid
      · rw [hch1 id1 (fun row hrow hc => hex ⟨row, hrow, hc⟩)] at hr
        exact hInv.idfield id1 r hr
    · intro id1 r hr
      rw [hb2m] at hr
      by_cases hex : ∃ row ∈ rows, asId (getField row t.idAttribute) = some id1
      · obtain ⟨row, hrow, hasid⟩ := hex
        rw [hch2 row hrow id1 hasid] at hr
        cases hr
        intro kv hkv
        rcases mem_amerge mergeObj row kv hkv with h1 | h1
        · exact primRec_mem mergeObj hprimM kv h1
        · obtain ⟨i, _, hl⟩ := recordsOf_mem t b ids rows hrows row hrow
          exact hInv.prim i row hl kv h1
      · rw [hch1 id1 (fun row hrow hc => hex ⟨row, hrow, hc⟩)] at hr
        exact hInv.prim id1 r hr
    · intro id1 h1
      rw [hb2i] at h1
      have : maxD t b2 = maxD t b := by
        rw [maxD, maxD, Table.getMaxId, Table.getMaxId, Table.getMeta, Table.getMeta, hb2meta]
      rw [this]
      exact hInv.maxid id1 h1
    · intro f hf hu k id1
      have hchar := hbmem f hf hu
        (fun row hrow rid hrid k1 hmem => hsep f hf hu row hrow rid hrid k1 hmem)
        hstable hndrows k id1
      rw [hchar, hb2m]
      constructor
      · intro hm
        rcases hm with ⟨row, hrow, hasid, hk⟩ | ⟨hno, hmem⟩
        · exact ⟨amerge mergeObj row, hch2 row hrow id1 hasid, hk.symm⟩
        · obtain ⟨r, hr, hrk⟩ := (hInv.exact f hf hu k id1).mp hmem
          refine ⟨r, ?_, hrk⟩
          rw [hch1 id1 hno]
          exact hr
      · rintro ⟨r, hr, hrk⟩
        by_cases hex : ∃ row ∈ rows, asId (getField row t.idAttribute) = some id1
        · obtain ⟨row, hrow, hasid⟩ := hex
          rw [hch2 row hrow id1 hasid] at hr
          cases hr
          exact Or.inl ⟨row, hrow, hasid, hrk.symm⟩
        · have hno : ∀ row ∈ rows, asId (getField row t.idAttribute) ≠ some id1 :=
            fun row hrow hc => hex ⟨row, hrow, hc⟩
          rw [hch1 id1 hno] at hr
          exact Or.inr ⟨hno, (hInv.exact f hf hu k id1).mpr ⟨r, hr, hrk⟩⟩
    · intro f hf hu k hk
      exact hbuniq f hf hu (fun k1 hk1 => hInv.uniqlen f hf hu k1 hk1) k hk

/-! ### Delete preservation -/

theorem rowIdsOf_eq (t : Table) (b : Branch) (hInv : TInv t b) :
    ∀ (ids : List Int) (rows : List Rec), t.recordsOf b ids = some rows →
    rowIdsOf t rows = some ids := by
  intro ids rows h
  have hf := recordsOf_char t b ids rows h
  clear h
  induction hf with
  | nil => rfl
  | cons hrel _ ih =>
    rw [rowIdsOf, hInv.idfield _ _ hrel]
    rw [show asId (JSVal.num _) = some _ from rfl, ih]

theorem delete_inv (t : Table) (hwf : TWF t) (tx : Tx) (hcow : tx.withMutations = false)
    (b : Branch) (ids : List Int) (rows : List Rec) (b2 : Branch)
    (hInv : TInv t b)
    (hrows : t.recordsOf b ids = some rows)
    (hv : t.validOp b (.delete ids) = true)
    (hdel : t.delete tx b rows = some b2) :
    TInv t b2 := by
  simp only [Table.validOp, Bool.and_eq_true] at hv
  obtain ⟨hall, hnd0⟩ := hv
  have hidsnd : ids.Nodup := by simpa using hnd0
  rw [Table.delete] at hdel
  cases hfl : t.deleteIndexFields tx rows t.getIndexedFields b with
  | none => simp only [hfl] at hdel; cases hdel
  | some bA =>
    simp only [hfl] at hdel
    rw [rowIdsOf_eq t b hInv ids rows hrows] at hdel
    simp only [hcow, Bool.false_eq_true, if_false] at hdel
    cases hdel
    obtain ⟨hbi, hbm, hbmeta, _, hbmem, hbuniq⟩ :=
      deleteIndexFields_props t tx rows t.getIndexedFields b bA hfl
        (getIndexedFields_nodup t hwf)
    have hrowids : rows.map (fun row => asId (getField row t.idAttribute)) = ids.map some :=
      recordsOf_rowids t b hInv ids rows hrows
    have hndrows : (rows.map (fun row => asId (getField row t.idAttribute))).Nodup := by
      rw [hrowids]
      exact hidsnd.map (fun a b h => Option.some.inj h)
    have hexid : ∀ id1 : Int,
        (∃ row ∈ rows, asId (getField row t.idAttribute) = some id1) ↔ id1 ∈ ids := by
      intro id1
      constructor
      · rintro ⟨row, hrow, hasid⟩
        have : some id1 ∈ ids.map some := by
          rw [← hrowids]
          exact hasid ▸ List.mem_map_of_mem _ hrow
        simpa using this
      · intro hid1
        have : some id1 ∈ rows.map (fun row => asId (getField row t.idAttribute)) := by
          rw [hrowids]
          exact List.mem_map_of_mem _ hid1
        obtain ⟨row, hrow, hasid⟩ := List.mem_map.mp this
        exact ⟨row, hrow, hasid⟩
    have hsep : ∀ f1 ∈ t.getIndexedFields, (t.fieldOptsOf f1).isUnique = false →
        ∀ row ∈ rows, ∀ rid : Int,
        asId (getField row t.idAttribute) = some rid →
        ∀ k, rid ∈ bucketK b f1 k → k = toKey (getField row f1) := by
      intro f1 hf1 huq row hrow rid hrid k hmem
      obtain ⟨i, _, hl⟩ := recordsOf_mem t b ids rows hrows row hrow
      have hrowid : getField row t.idAttribute = .num i := hInv.idfield i row hl
      have hri : rid = i := by
        rw [hrowid] at hrid
        exact (Option.some.inj hrid).symm
      subst hri
      obtain ⟨r, hr, hrk⟩ := (hInv.exact f1 hf1 huq k rid).mp hmem
      rw [hl] at hr
      cases hr
      exact hrk.symm
    have hmemflt : ∀ id1 : Int,
        id1 ∈ bA.items.filter (fun id => !ids.contains id) ↔
          id1 ∈ b.items ∧ id1 ∉ ids := by
      intro id1
      rw [List.mem_filter, hbi]
      constructor
      · rintro ⟨h1, h2⟩
        refine ⟨h1, ?_⟩
        simpa using h2
      · rintro ⟨h1, h2⟩
        refine ⟨h1, ?_⟩
        simpa using h2
    refine ⟨?_, ?_, ?_, ?_, ?_, ?_, ?_⟩
    · show (bA.items.filter _).Nodup
      exact (hbi ▸ hInv.nodup).filter _
    · intro id1
      show _ ↔ (alookup id1 (aremoveAll ids bA.itemsById)).isSome
      rw [hmemflt id1, alookup_aremoveAll, hbm]
      by_cases hin : id1 ∈ ids
      · rw [if_pos hin]
        constructor
        · rintro ⟨_, h2⟩
          exact absurd hin h2
        · intro h
          cases h
      · rw [if_neg hin]
        constructor
        · rintro ⟨h1, _⟩
          exact (hInv.keys id1).mp h1
        · intro h
          exact ⟨(hInv.keys id1).mpr h, hin⟩
    · intro id1 r hr
      have hr2 : alookup id1 (aremoveAll ids bA.itemsById) = some r := hr
      rw [alookup_aremoveAll] at hr2
      by_cases hin : id1 ∈ ids
      · rw [if_pos hin] at hr2
        cases hr2
      · rw [if_neg hin, hbm] at hr2
        exact hInv.idfield id1 r hr2
    · intro id1 r hr
      have hr2 : alookup id1 (aremoveAll ids bA.itemsById) = some r := hr
      rw [alookup_aremoveAll] at hr2
      by_cases hin : id1 ∈ ids
      · rw [if_pos hin] at hr2
        cases hr2
      · rw [if_neg hin, hbm] at hr2
        exact hInv.prim id1 r hr2
    · intro id1 h1
      have h2 : id1 ∈ b.items ∧ id1 ∉ ids := (hmemflt id1).mp h1
      have hmx : (alookup "maxId" bA.meta).getD (-1) = maxD t b := by
        rw [hbmeta]
        rfl
      show id1 ≤ (alookup "maxId" bA.meta).getD (-1)
      rw [hmx]
      exact hInv.maxid id1 h2.1
    · intro f hf hu k id1
      have hchar := hbmem f hf hu
        (fun row hrow rid hrid k1 hm => hsep f hf hu row hrow rid hrid k1 hm) hndrows k id1
      show id1 ∈ bucketK bA f k ↔
        ∃ r, alookup id1 (aremoveAll ids bA.itemsById) = some r ∧ toKey (getField r f) = k
      rw [hchar, hbm, alookup_aremoveAll]
      by_cases hin : id1 ∈ ids
      · constructor
        · rintro ⟨hno, _⟩
          obtain ⟨row, hrow, hasid⟩ := (hexid id1).mpr hin
          exact absurd hasid (hno row hrow)
        · rintro ⟨r, hr, _⟩
          rw [if_pos hin] at hr
          cases hr
      · constructor
        · rintro ⟨_, hmem⟩
          obtain ⟨r, hr, hrk⟩ := (hInv.exact f hf hu k id1).mp hmem
          refine ⟨r, ?_, hrk⟩
          rw [if_neg hin]
          exact hr
        · rintro ⟨r, hr, hrk⟩
          rw [if_neg hin] at hr
          refine ⟨?_, (hInv.exact f hf hu k id1).mpr ⟨r, hr, hrk⟩⟩
          intro row hrow hasid
          exact hin ((hexid id1).mp ⟨row, hrow, hasid⟩)
    · intro f hf hu k hk
      show (bucketK bA f k).length ≤ 1
      exact hbuniq f hf hu (fun k1 hk1 => hInv.uniqlen f hf hu k1 hk1) k hk

/-! ### Preservation along operation sequences -/

theorem step_inv (t : Table) (hwf : TWF t) (b : Branch) (op : Op) (b2 : Branch)
    (hInv : TInv t b) (hv : t.validOp b op = true)
    (hstep : t.step t.cowTx b op = some b2) : TInv t b2 := by
  cases op with
  | insert entry =>
    rw [Table.step] at hstep
    cases hins : t.insert t.cowTx b entry with
    | none => rw [hins] at hstep; cases hstep
    | some res =>
      rw [hins] at hstep
      cases hstep
      exact insert_inv t hwf t.cowTx b entry hInv hv res hins
  | update ids mergeObj =>
    rw [Table.step] at hstep
    cases hrec : t.recordsOf b ids with
    | none => simp only [hrec] at hstep; cases hstep
    | some rows =>
      simp only [hrec] at hstep
      exact update_inv t hwf t.cowTx rfl b ids mergeObj rows b2 hInv hrec hv hstep
  | delete ids =>
    rw [Table.step] at hstep
    cases hrec : t.recordsOf b ids with
    | none => simp only [hrec] at hstep; cases hstep
    | some rows =>
      simp only [hrec] at hstep
      exact delete_inv t hwf t.cowTx rfl b ids rows b2 hInv hrec hv hstep

theorem run_inv (t : Table) (hwf : TWF t) :
    ∀ (ops : List Op) (b : Branch), TInv t b → t.validRun b ops = true →
    ∃ b2, t.run t.cowTx b ops = some b2 ∧ TInv t b2 := by
  intro ops
  induction ops with
  | nil =>
    intro b hInv _
    exact ⟨b, rfl, hInv⟩
  | cons op rest ih =>
    intro b hInv hvr
    rw [Table.validRun, Bool.and_eq_true] at hvr
    obtain ⟨hv, hrest⟩ := hvr
    cases hstep : t.step t.cowTx b op with
    | none => rw [hstep] at hrest; cases hrest
    | some bnext =>
      rw [hstep] at hrest
      obtain ⟨b2, hrun, hInv2⟩ := ih bnext (step_inv t hwf b op bnext hInv hv hstep) hrest
      refine ⟨b2, ?_, hInv2⟩
      rw [Table.run, hstep]
      exact hrun

/-! ### Transaction-mode equivalence -/

theorem setMeta_tx (t : Table) (tx1 tx2 : Tx) : t.setMeta tx1 = t.setMeta tx2 := rfl

theorem setMaxId_tx (t : Table) (tx1 tx2 : Tx) : t.setMaxId tx1 = t.setMaxId tx2 := rfl

theorem insertToIndex_tx (t : Table) (tx1 tx2 : Tx) :
    t.insertToIndex tx1 = t.insertToIndex tx2 := rfl

theorem deleteFromIndex_tx (t : Table) (tx1 tx2 : Tx) :
    t.deleteFromIndex tx1 = t.deleteFromIndex tx2 := rfl

theorem insertIndexLoop_tx (t : Table) (tx1 tx2 : Tx) :
    t.insertIndexLoop tx1 = t.insertIndexLoop tx2 := by
  funext id entry fs
  induction fs with
  | nil => funext ws; rfl
  | cons f rest ih =>
    funext ws
    show t.insertIndexLoop tx1 id entry rest _ = t.insertIndexLoop tx2 id entry rest _
    rw [insertToIndex_tx t tx1 tx2, ih]

theorem updateIndexRows_tx (t : Table) (tx1 tx2 : Tx) (mergeObj : Rec) (o : FieldOpts)
    (f : String) : ∀ rows : List Rec,
    t.updateIndexRows tx1 mergeObj o f rows = t.updateIndexRows tx2 mergeObj o f rows := by
  intro rows
  induction rows with
  | nil => rfl
  | cons row rest ih =>
    funext ws
    rw [Table.updateIndexRows]
    rw [Table.updateIndexRows]
    rw [deleteFromIndex_tx t tx1 tx2, insertToIndex_tx t tx1 tx2, ih]

theorem updateIndexFields_tx (t : Table) (tx1 tx2 : Tx) (mergeObj : Rec) (rows : List Rec) :
    ∀ fs : List String,
    t.updateIndexFields tx1 mergeObj rows fs = t.updateIndexFields tx2 mergeObj rows fs := by
  intro fs
  induction fs with
  | nil => rfl
  | cons f rest ih =>
    funext ws
    rw [Table.updateIndexFields]
    rw [Table.updateIndexFields]
    rw [updateIndexRows_tx t tx1 tx2 mergeObj (t.fieldOptsOf f) f rows, ih]

theorem deleteIndexRows_tx (t : Table) (tx1 tx2 : Tx) (o : FieldOpts)
    (f : String) : ∀ rows : List Rec,
    t.deleteIndexRows tx1 o f rows = t.deleteIndexRows tx2 o f rows := by
  intro rows
  induction rows with
  | nil => rfl
  | cons row rest ih =>
    funext ws
    rw [Table.deleteIndexRows]
    rw [Table.deleteIndexRows]
    rw [deleteFromIndex_tx t tx1 tx2, ih]

theorem deleteIndexFields_tx (t : Table) (tx1 tx2 : Tx) (rows : List Rec) :
    ∀ fs : List String,
    t.deleteIndexFields tx1 rows fs = t.deleteIndexFields tx2 rows fs := by
  intro fs
  induction fs with
  | nil => rfl
  | cons f rest ih =>
    funext ws
    rw [Table.deleteIndexFields]
    rw [Table.deleteIndexFields]
    rw [deleteIndexRows_tx t tx1 tx2 (t.fieldOptsOf f) f rows, ih]

theorem insert_tx_irrel (t : Table) (tx1 tx2 : Tx) (b : Branch) (entry : Rec) :
    t.insert tx1 b entry = t.insert tx2 b entry := by
  unfold Table.insert
  rw [setMaxId_tx t tx1 tx2, insertIndexLoop_tx t tx1 tx2]

theorem updateIndexRows_merged_rows (t : Table) (tx : Tx) (mergeObj : Rec)
    (o : FieldOpts) (f : String)
    (hid : alookup t.idAttribute mergeObj = none)
    (hf : alookup f mergeObj = none) :
    ∀ rows : List Rec,
    t.updateIndexRows tx mergeObj o f (rows.map (amerge mergeObj)) =
      t.updateIndexRows tx mergeObj o f rows := by
  intro rows
  induction rows with
  | nil => rfl
  | cons row rest ih =>
    funext ws
    rw [List.map_cons]
    rw [Table.updateIndexRows]
    rw [Table.updateIndexRows]
    simp only [getField_amerge_none mergeObj (amerge mergeObj row) t.idAttribute hid,
      getField_amerge_none mergeObj (amerge mergeObj row) f hf,
      getField_amerge_none mergeObj row t.idAttribute hid,
      getField_amerge_none mergeObj row f hf, ih]

theorem updateIndexFields_merged_rows (t : Table) (tx : Tx) (mergeObj : Rec)
    (hid : alookup t.idAttribute mergeObj = none) :
    ∀ fs : List String, (∀ f ∈ fs, alookup f mergeObj = none) →
    ∀ rows : List Rec,
    t.updateIndexFields tx mergeObj (rows.map (amerge mergeObj)) fs =
      t.updateIndexFields tx mergeObj rows fs := by
  intro fs
  induction fs with
  | nil =>
    intro _ _
    rfl
  | cons f rest ih =>
    intro hfs rows
    funext ws
    rw [Table.updateIndexFields]
    rw [Table.updateIndexFields]
    rw [updateIndexRows_merged_rows t tx mergeObj (t.fieldOptsOf f) f hid
      (hfs f (List.mem_cons_self f rest)) rows]
    rw [ih (fun g hg => hfs g (List.mem_cons_of_mem f hg)) rows]

theorem update_mut_eq_cow (t : Table) (b : Branch) (rows : List Rec)
    (mergeObj : Rec)
    (hid : alookup t.idAttribute mergeObj = none)
    (hind : ∀ f ∈ t.getIndexedFields, alookup f mergeObj = none) :
    t.update t.mutTx b rows mergeObj = t.update t.cowTx b rows mergeObj := by
  unfold Table.update
  cases hml : t.updateMapLoop mergeObj rows b.itemsById with
  | none => rfl
  | some newMap =>
    show t.updateIndexFields t.mutTx mergeObj
        (if t.mutTx.withMutations then rows.map (amerge mergeObj) else rows)
        t.getIndexedFields { b with itemsById := newMap } =
      t.updateIndexFields t.cowTx mergeObj
        (if t.cowTx.withMutations then rows.map (amerge mergeObj) else rows)
        t.getIndexedFields { b with itemsById := newMap }
    rw [updateIndexFields_tx t t.mutTx t.cowTx mergeObj
      (if t.mutTx.withMutations then rows.map (amerge mergeObj) else rows)
      t.getIndexedFields]
    rw [show t.mutTx.withMutations = true from rfl,
        show t.cowTx.withMutations = false from rfl]
    rw [if_pos (Eq.refl true), if_neg Bool.false_ne_true]
    rw [updateIndexFields_merged_rows t t.cowTx mergeObj hid t.getIndexedFields hind rows]

theorem deleteIndexFields_items (t : Table) (tx : Tx) (rows : List Rec) :
    ∀ (fs : List String) (ws ws2 : Branch),
    t.deleteIndexFields tx rows fs ws = some ws2 →
    ws2.items = ws.items ∧ ws2.itemsById = ws.itemsById := by
  intro fs
  induction fs with
  | nil =>
    intro ws ws2 h
    cases h
    exact ⟨rfl, rfl⟩
  | cons f rest ih =>
    intro ws ws2 h
    rw [Table.deleteIndexFields] at h
    cases hrows : t.deleteIndexRows tx (t.fieldOptsOf f) f rows ws with
    | none => simp only [hrows] at h; cases h
    | some wsA =>
      simp only [hrows] at h
      obtain ⟨hri, hrm, _, _⟩ := deleteIndexRows_frame t tx (t.fieldOptsOf f) f rows ws wsA hrows
      obtain ⟨ihi, ihm⟩ := ih wsA ws2 h
      exact ⟨by rw [ihi, hri], by rw [ihm, hrm]⟩

theorem delete_fold_eq (ids : List Int) :
    ∀ (st : Branch), st.items.Nodup →
    ids.foldl (fun st id => { st with items := removeFirst id st.items, itemsById := aremove id st.itemsById }) st =
    { st with items := st.items.filter (fun id => !ids.contains id), itemsById := aremoveAll ids st.itemsById } := by
  induction ids with
  | nil =>
    intro st _
    rw [List.foldl_nil]
    have hX : st.items.filter (fun id => !(([] : List Int).contains id)) = st.items := by
      rw [List.filter_eq_self]
      intro a _
      simp
    have hY : aremoveAll ([] : List Int) st.itemsById = st.itemsById := by
      rw [aremoveAll, List.filter_eq_self]
      intro a _
      simp
    rw [hX, hY]
  | cons i rest ih =>
    intro st hnd
    rw [List.foldl_cons]
    rw [ih _ (by
      show (removeFirst i st.items).Nodup
      rw [removeFirst_eq_filter i st.items hnd]
      exact hnd.filter _)]
    have hitems : (removeFirst i st.items).filter (fun id => !rest.contains id) =
        st.items.filter (fun id => !((i :: rest).contains id)) := by
      rw [removeFirst_eq_filter i st.items hnd, List.filter_filter]
      apply List.filter_congr
      intro a _
      simp only [List.contains_cons, Bool.not_or]
      rw [Bool.and_comm]
      rfl
    have hmap : aremoveAll rest (aremove i st.itemsById) =
        aremoveAll (i :: rest) st.itemsById := by
      rw [aremoveAll, aremove, aremoveAll, List.filter_filter]
      apply List.filter_congr
      intro kv _
      simp only [List.contains_cons, Bool.not_or]
      rw [Bool.and_comm]
      rfl
    show (⟨(removeFirst i st.items).filter (fun id => !rest.contains id), aremoveAll rest (aremove i st.itemsById), st.meta, st.indexes⟩ : Branch) = _
    rw [hitems, hmap]

theorem delete_mut_eq_cow (t : Table) (b : Branch) (rows : List Rec)
    (hnodup : b.items.Nodup) :
    t.delete t.mutTx b rows = t.delete t.cowTx b rows := by
  rw [Table.delete, Table.delete]
  rw [deleteIndexFields_tx t t.mutTx t.cowTx rows t.getIndexedFields]
  cases hA : t.deleteIndexFields t.cowTx rows t.getIndexedFields b with
  | none => rfl
  | some bA =>
    simp only
    cases hids : rowIdsOf t rows with
    | none => rfl
    | some idsToDelete =>
      simp only
      obtain ⟨hbi, _⟩ := deleteIndexFields_items t t.cowTx rows t.getIndexedFields b bA hA
      simp only [Table.mutTx, Table.cowTx]
      rw [if_pos trivial, if_neg Bool.false_ne_true]
      rw [delete_fold_eq idsToDelete bA (hbi ▸ hnodup)]

theorem step_mut_eq_cow (t : Table) (b : Branch) (op : Op) (hInv : TInv t b)
    (hv : t.validOp b op = true) (hsafe : t.opModeSafe op = true) :
    t.step t.mutTx b op = t.step t.cowTx b op := by
  cases op with
  | insert entry =>
    rw [Table.step, Table.step, insert_tx_irrel t t.mutTx t.cowTx b entry]
  | update ids mergeObj =>
    rw [Table.step, Table.step]
    cases hrec : t.recordsOf b ids with
    | none => rfl
    | some rows =>
      simp only
      simp only [Table.validOp, Bool.and_eq_true] at hv
      obtain ⟨⟨⟨_, _⟩, _⟩, hnoid0⟩ := hv
      have hid : alookup t.idAttribute mergeObj = none := by
        cases hx : alookup t.idAttribute mergeObj with
        | none => rfl
        | some v => rw [hx] at hnoid0; simp at hnoid0
      have hind : ∀ f ∈ t.getIndexedFields, alookup f mergeObj = none := by
        intro f hf
        rw [Table.opModeSafe] at hsafe
        have hx := List.all_eq_true.mp hsafe f hf
        cases hy : alookup f mergeObj with
        | none => rfl
        | some v => rw [hy] at hx; simp at hx
      rw [update_mut_eq_cow t b rows mergeObj hid hind]
  | delete ids =>
    rw [Table.step, Table.step]
    cases hrec : t.recordsOf b ids with
    | none => rfl
    | some rows =>
      simp only
      rw [delete_mut_eq_cow t b rows hInv.nodup]

theorem run_mut_eq_cow (t : Table) (hwf : TWF t) :
    ∀ (ops : List Op) (b : Branch), TInv t b → t.validRun b ops = true →
    ops.all t.opModeSafe = true →
    t.run t.mutTx b ops = t.run t.cowTx b ops := by
  intro ops
  induction ops with
  | nil =>
    intro b _ _ _
    rfl
  | cons op rest ih =>
    intro b hInv hvr hsafe
    rw [Table.validRun, Bool.and_eq_true] at hvr
    obtain ⟨hv, hrest⟩ := hvr
    rw [List.all_cons, Bool.and_eq_true] at hsafe
    obtain ⟨hs, hsrest⟩ := hsafe
    rw [Table.run, Table.run, step_mut_eq_cow t b op hInv hv hs]
    cases hstep : t.step t.cowTx b op with
    | none => rfl
    | some bnext =>
      rw [hstep] at hrest
      exact ih bnext (step_inv t hwf b op bnext hInv hv hstep) hrest hsrest

/-! ### The primary-key fast path in `query` -/

theorem applyClause_filter_id (t : Table) (branch : Branch) (rows : Rows)
    (payload : Rec) (n : Int)
    (hpin : alookup t.idAttribute payload = some (.num n)) (hn : n ≠ 0) :
    t.applyClause branch rows (.filter payload) =
      (match alookup n branch.itemsById with
       | some r => Rows.one (.obj r)
       | none => Rows.arr []) := by
  rw [show t.applyClause branch rows (.filter payload) =
    (if (alookup t.idAttribute payload).isSome && truthy (getField payload t.idAttribute) then
      (if t.idExistsVal branch (getField payload t.idAttribute) then
        Rows.one (t.accessIdVal branch (getField payload t.idAttribute))
       else Rows.arr [])
     else
      match rows with
      | .arr l => .arr (l.filter (fun v => isMatch v payload))
      | .one v => .arr ((collValues v).filter (fun w => isMatch w payload))) from rfl]
  have hgf : getField payload t.idAttribute = .num n := by
    rw [getField, hpin, Option.getD_some]
  have hcond : ((alookup t.idAttribute payload).isSome &&
      truthy (getField payload t.idAttribute)) = true := by
    rw [hpin, hgf]
    simp [truthy, hn]
  rw [if_pos hcond, hgf]
  cases hx : alookup n branch.itemsById with
  | some r =>
    have hex : t.idExistsVal branch (.num n) = true := by
      rw [Table.idExistsVal, Table.idExists, hx]
      rfl
    rw [if_pos hex]
    rw [Table.accessIdVal, Table.accessId, hx]
  | none =>
    have hex : ¬ t.idExistsVal branch (.num n) = true := by
      rw [Table.idExistsVal, Table.idExists, hx]
      simp
    rw [if_neg hex]

theorem query_filter_id_last (t : Table) (branch : Branch) (clauses : List Clause)
    (payload : Rec) (n : Int)
    (hpin : alookup t.idAttribute payload = some (.num n)) (hn : n ≠ 0) :
    t.query branch (clauses ++ [.filter payload]) =
      (match alookup n branch.itemsById with
       | some r => Rows.one (.obj r)
       | none => Rows.arr []) := by
  rw [Table.query, List.foldl_append, List.foldl_cons, List.foldl_nil]
  exact applyClause_filter_id t branch _ payload n hpin hn

/-! ### Registry characterization -/

/-- The through models one registration synthesizes, in field order. -/
def throughModelsOf (m : ModelDef) : List ModelDef :=
  m.fields.filterMap (fun fd =>
    match fd.2 with
    | .manyToMany target => some (mkThroughModel m.modelName fd.1 target)
    | _ => none)

theorem registerM2M_foldl_char (name : String) :
    ∀ (fs : List (String × FieldDecl)) (s : Schema),
    (fs.foldl (fun acc f =>
      match f.2 with
      | FieldDecl.manyToMany target =>
        { acc with implicitThroughModels :=
            acc.implicitThroughModels ++ [mkThroughModel name f.1 target] }
      | _ => acc) s) =
    { s with implicitThroughModels := s.implicitThroughModels ++
        fs.filterMap (fun fd =>
          match fd.2 with
          | FieldDecl.manyToMany target => some (mkThroughModel name fd.1 target)
          | _ => none) } := by
  intro fs
  induction fs with
  | nil =>
    intro s
    show s = _
    rw [List.filterMap_nil, List.append_nil]
  | cons f rest ih =>
    intro s
    rw [List.foldl_cons, List.filterMap_cons]
    cases hfd : f.2 with
    | manyToMany target =>
      simp only
      rw [ih]
      show _ = { s with implicitThroughModels := s.implicitThroughModels ++
        (mkThroughModel name f.1 target :: rest.filterMap _) }
      rw [show (mkThroughModel name f.1 target :: rest.filterMap (fun fd =>
          match fd.2 with
          | FieldDecl.manyToMany target => some (mkThroughModel name fd.1 target)
          | _ => none)) = [mkThroughModel name f.1 target] ++ rest.filterMap (fun fd =>
          match fd.2 with
          | FieldDecl.manyToMany target => some (mkThroughModel name fd.1 target)
          | _ => none) from rfl, ← List.append_assoc]
    | attr => simp only; rw [ih]
    | foreignKey target => simp only; rw [ih]
    | oneToOne target => simp only; rw [ih]

theorem registerManyToManyModelsFor_char (s : Schema) (m : ModelDef) :
    s.registerManyToManyModelsFor m =
      { s with implicitThroughModels := s.implicitThroughModels ++ throughModelsOf m } := by
  rw [Schema.registerManyToManyModelsFor, throughModelsOf]
  exact registerM2M_foldl_char m.modelName m.fields s

theorem register_one_char (s : Schema) (m : ModelDef) :
    s.register [m] =
      { registry := s.registry ++ [m],
        implicitThroughModels := s.implicitThroughModels ++ throughModelsOf m } := by
  rw [Schema.register, List.foldl_cons, List.foldl_nil,
    registerManyToManyModelsFor_char]

/-! ## Claim theorems

Concrete fixtures used by witnesses and counterexamples. -/

/-- A table with no indexed fields (default options). -/
def exTable : Table := { idAttribute := "id", fields := [], useIndex := true }

/-- A table with one non-unique indexed field `f`. -/
def exTableIdx : Table :=
  { idAttribute := "id", fields := [("f", { index := true, isUnique := false })],
    useIndex := true }

/-- A table with one unique field `f`. -/
def exTableUniq : Table :=
  { idAttribute := "id", fields := [("f", { index := false, isUnique := true })],
    useIndex := true }

theorem exTable_wf : TWF exTable := by
  constructor <;> decide

theorem exTableIdx_wf : TWF exTableIdx := by
  constructor <;> decide

theorem exTableUniq_wf : TWF exTableUniq := by
  constructor <;> decide

/-- C5. `idSequencer`: with no supplied id, the assigned id and the new max
are both `max + 1` (absent max acting as `-1`); with a supplied id `s`, `s`
is used as-is and the new max is `max (m + 1) s`.  Concretely, four
auto-assigned inserts into an empty collection yield identities
`0, 1, 2, 3`, and after inserting explicit identity `10` the next
auto-assigned identity is `11`. -/
theorem claim_C5_id_sequencing :
    (∀ m : Int, idSequencer (some m) none = (m + 1, m + 1)) ∧
    idSequencer none none = (0, 0) ∧
    (∀ m s : Int, idSequencer (some m) (some s) = (max (m + 1) s, s)) ∧
    (∀ s : Int, idSequencer none (some s) = (max 0 s, s)) ∧
    (exTable.run exTable.cowTx exTable.getEmptyState
        [.insert [], .insert [], .insert [], .insert []]).map Branch.items =
      some [0, 1, 2, 3] ∧
    (exTable.run exTable.cowTx exTable.getEmptyState
        [.insert [], .insert [], .insert [], .insert [],
         .insert [("id", .num 10)], .insert []]).map Branch.items =
      some [0, 1, 2, 3, 10, 11] := by
  refine ⟨fun m => rfl, rfl, fun m s => rfl, fun s => ?_, rfl, rfl⟩
  show (max (-1 + 1) s, s) = (max 0 s, s)
  norm_num

/-- C3 counterexample: inserting the same explicit identity twice leaves a
duplicate in the identity list (`insert` never checks for id collisions),
so the claim fails for sequences that re-supply an existing identity. -/
theorem claim_C3_counterexample :
    (exTable.run exTable.cowTx exTable.getEmptyState
        [.insert [("id", .num 0)], .insert [("id", .num 0)]]).map Branch.items =
      some [0, 0] ∧
    ¬ ([0, 0] : List Int).Nodup := by
  exact ⟨rfl, by decide⟩

/-- C3 (amended: every explicitly supplied identity must be fresh, which
`validOp` demands).  For every valid sequence of operations from the empty
state, the identity list is duplicate-free and coincides, as a set, with
the key set of the by-identity map. -/
theorem claim_C3_identity_uniqueness (t : Table) (hwf : TWF t) (ops : List Op)
    (b2 : Branch)
    (hvalid : t.validRun t.getEmptyState ops = true)
    (hrun : t.run t.cowTx t.getEmptyState ops = some b2) :
    b2.items.Nodup ∧ ∀ id : Int, id ∈ b2.items ↔ (alookup id b2.itemsById).isSome := by
  obtain ⟨b2x, hrunx, hInv⟩ := run_inv t hwf ops t.getEmptyState (TInv_empty t) hvalid
  rw [hrun] at hrunx
  cases hrunx
  exact ⟨hInv.nodup, hInv.keys⟩

/-- The final branch of the C3 witness run. -/
def c3branch : Branch :=
  (exTable.run exTable.cowTx exTable.getEmptyState
    [.insert [("id", .num 5)], .insert [], .delete [5]]).getD exTable.getEmptyState

theorem claim_C3_witness :
    c3branch.items.Nodup ∧
    ∀ id : Int, id ∈ c3branch.items ↔ (alookup id c3branch.itemsById).isSome :=
  claim_C3_identity_uniqueness exTable exTable_wf
    [.insert [("id", .num 5)], .insert [], .delete [5]] c3branch rfl rfl

/-- C4 counterexample, two independent divergences.  First: after
inserting the same explicit identity twice, deleting that row removes one
duplicate in `withMutations` mode (`indexOf`/`splice`) but every
occurrence in copy-on-write mode (`filter`), so the modes produce
different identity lists.  Second: updating the indexed field `f` of the
only record from 1 to 2 succeeds in copy-on-write mode, but in
`withMutations` mode the in-place merge has already set `row.f = 2` when
the index loop runs, so `deleteFromIndex` looks up the bucket of the NEW
value 2, which does not exist — a `TypeError` in the source, `none` here. -/
theorem claim_C4_counterexample :
    ((exTable.run exTable.mutTx exTable.getEmptyState
        [.insert [("id", .num 0)], .insert [("id", .num 0)], .delete [0]]).map
        Branch.items = some [0] ∧
     (exTable.run exTable.cowTx exTable.getEmptyState
        [.insert [("id", .num 0)], .insert [("id", .num 0)], .delete [0]]).map
        Branch.items = some [] ∧
     some ([0] : List Int) ≠ some []) ∧
    (exTableIdx.run exTableIdx.mutTx exTableIdx.getEmptyState
        [.insert [("id", .num 0), ("f", .num 1)], .update [0] [("f", .num 2)]]
        = none ∧
     (exTableIdx.run exTableIdx.cowTx exTableIdx.getEmptyState
        [.insert [("id", .num 0), ("f", .num 1)], .update [0] [("f", .num 2)]]).isSome
        = true) := by
  exact ⟨⟨rfl, rfl, by decide⟩, rfl, rfl⟩

/-- C4 (amended: the starting branch satisfies the table invariant — in
particular a duplicate-free identity list, which only holds when every
explicitly supplied identity is fresh — and no update in the sequence
patches an indexed field).  Such a valid operation sequence produces
identical branch values in the two transaction modes.  Outside these
conditions the modes diverge: delete splices one occurrence off a
duplicated identity list where copy-on-write filters all, and an update
patching an indexed field de-indexes at the already-merged new value in
`withMutations` mode (the in-place merge aliasing) but at the old value
in copy-on-write mode. -/
theorem claim_C4_mode_equivalence (t : Table) (hwf : TWF t) (b : Branch)
    (hInv : TInv t b) (ops : List Op)
    (hvalid : t.validRun b ops = true)
    (hsafe : ops.all t.opModeSafe = true) :
    t.run t.mutTx b ops = t.run t.cowTx b ops :=
  run_mut_eq_cow t hwf ops b hInv hvalid hsafe

theorem claim_C4_witness :
    exTableIdx.run exTableIdx.mutTx exTableIdx.getEmptyState
        [.insert [("id", .num 0), ("f", .num 1)], .update [0] [("g", .num 2)],
         .delete [0]] =
      exTableIdx.run exTableIdx.cowTx exTableIdx.getEmptyState
        [.insert [("id", .num 0), ("f", .num 1)], .update [0] [("g", .num 2)],
         .delete [0]] :=
  claim_C4_mode_equivalence exTableIdx exTableIdx_wf exTableIdx.getEmptyState
    (TInv_empty exTableIdx)
    [.insert [("id", .num 0), ("f", .num 1)], .update [0] [("g", .num 2)],
     .delete [0]] rfl rfl

/-- The final branch of the C2 counterexample run. -/
def c2branch : Branch :=
  (exTableIdx.run exTableIdx.cowTx exTableIdx.getEmptyState
    [.insert [("id", .num 0), ("f", .num 1)],
     .insert [("id", .num 0), ("f", .num 2)]]).getD exTableIdx.getEmptyState

/-- C2 counterexample: re-inserting an existing explicit identity with a
different indexed value leaves the identity in the old value's bucket
while the stored record carries the new value, so the index is not exact
for such sequences. -/
theorem claim_C2_counterexample :
    exTableIdx.run exTableIdx.cowTx exTableIdx.getEmptyState
        [.insert [("id", .num 0), ("f", .num 1)],
         .insert [("id", .num 0), ("f", .num 2)]] = some c2branch ∧
    exTableIdx.getIdListByIndex c2branch "f" (.num 1) = [0] ∧
    alookup 0 c2branch.itemsById = some [("id", .num 0), ("f", .num 2)] ∧
    getField [("id", JSVal.num 0), ("f", JSVal.num 2)] "f" ≠ JSVal.num 1 := by
  refine ⟨rfl, rfl, rfl, ?_⟩
  intro h
  cases h

/-- C2 (amended: explicitly supplied identities must be fresh — the
`validOp` contract — and the field is a non-unique indexed field; for
unique fields the silent-overwrite policy of C6 can orphan identities from
their bucket).  After every valid operation sequence from the empty state,
a non-unique indexed field's bucket for a primitive value `v` holds
exactly the identities whose stored record's field equals `v`. -/
theorem claim_C2_index_exactness (t : Table) (hwf : TWF t) (f : String)
    (hf : f ∈ t.getIndexedFields) (hu : (t.fieldOptsOf f).isUnique = false)
    (ops : List Op) (b2 : Branch)
    (hvalid : t.validRun t.getEmptyState ops = true)
    (hrun : t.run t.cowTx t.getEmptyState ops = some b2)
    (v : JSVal) (hv : isPrim v = true) (id : Int) :
    id ∈ t.getIdListByIndex b2 f v ↔
      ∃ r : Rec, alookup id b2.itemsById = some r ∧ getField r f = v := by
  obtain ⟨b2x, hrunx, hInv⟩ := run_inv t hwf ops t.getEmptyState (TInv_empty t) hvalid
  rw [hrun] at hrunx
  cases hrunx
  rw [getIdListByIndex_eq_bucketK, hInv.exact f hf hu (toKey v) id]
  constructor
  · rintro ⟨r, hr, hrk⟩
    refine ⟨r, hr, ?_⟩
    exact toKey_inj_prim _ _ (getField_prim t b2 hInv id r hr f) hv hrk
  · rintro ⟨r, hr, hrv⟩
    exact ⟨r, hr, by rw [hrv]⟩

/-- The final branch of the C2 witness run. -/
def c2wbranch : Branch :=
  (exTableIdx.run exTableIdx.cowTx exTableIdx.getEmptyState
    [.insert [("id", .num 0), ("f", .num 1)], .insert [("id", .num 1), ("f", .num 1)],
     .update [0] [("f", .num 3)]]).getD exTableIdx.getEmptyState

theorem claim_C2_witness :
    (0 : Int) ∈ exTableIdx.getIdListByIndex c2wbranch "f" (.num 3) ↔
      ∃ r : Rec, alookup 0 c2wbranch.itemsById = some r ∧ getField r "f" = .num 3 :=
  claim_C2_index_exactness exTableIdx exTableIdx_wf "f" (by decide) rfl
    [.insert [("id", .num 0), ("f", .num 1)], .insert [("id", .num 1), ("f", .num 1)],
     .update [0] [("f", .num 3)]] c2wbranch rfl rfl (.num 3) rfl 0

/-- C6 counterexample: two records may hold `null` in a unique field
simultaneously — the shared `null` bucket then has length 2, refuting the
"every value v" reading of the claim. -/
theorem claim_C6_counterexample :
    (exTableUniq.run exTableUniq.cowTx exTableUniq.getEmptyState
        [.insert [("id", .num 0), ("f", .null)],
         .insert [("id", .num 1), ("f", .null)]]).map
        (fun b => exTableUniq.getIdListByIndex b "f" .null) = some [0, 1] ∧
    ¬ ([0, 1] : List Int).length ≤ 1 := by
  exact ⟨rfl, by decide⟩

/-- C6 (amended: every *non-`null`* value — `null` is exempted from
uniqueness handling, see C10).  For a unique field, after every valid
operation sequence the bucket of any non-`null` value holds at most one
identity; and an insert into a unique field's non-`null` bucket always
*replaces* the bucket by the new identity alone (the silent-overwrite
policy). -/
theorem claim_C6_unique_index :
    (∀ t : Table, TWF t → ∀ f ∈ t.getIndexedFields,
      (t.fieldOptsOf f).isUnique = true →
      ∀ (ops : List Op) (b2 : Branch), t.validRun t.getEmptyState ops = true →
      t.run t.cowTx t.getEmptyState ops = some b2 →
      ∀ v : JSVal, v ≠ .null → (t.getIdListByIndex b2 f v).length ≤ 1) ∧
    (∀ (t : Table) (tx : Tx) (b : Branch) (id : Int) (o : FieldOpts) (f : String)
      (v : JSVal), o.isUnique = true → v ≠ .null →
      t.getIdListByIndex (t.insertToIndex tx b id o f v) f v = [id]) := by
  constructor
  · intro t hwf f hf hu ops b2 hvalid hrun v hv
    obtain ⟨b2x, hrunx, hInv⟩ := run_inv t hwf ops t.getEmptyState (TInv_empty t) hvalid
    rw [hrun] at hrunx
    cases hrunx
    rw [getIdListByIndex_eq_bucketK]
    refine hInv.uniqlen f hf hu (toKey v) ?_
    intro hk
    exact hv ((toKey_eq_knull_iff v).mp hk)
  · intro t tx b id o f v hu hv
    rw [getIdListByIndex_eq_bucketK, bucketK_insertToIndex, if_pos rfl, if_pos rfl]
    exact newBucketIns_uniq_len o _ id v hu hv

/-- The final branch of the C6 witness run (two inserts colliding on the
unique value 5, then a fresh value). -/
def c6branch : Branch :=
  (exTableUniq.run exTableUniq.cowTx exTableUniq.getEmptyState
    [.insert [("id", .num 0), ("f", .num 5)],
     .insert [("id", .num 1), ("f", .num 5)]]).getD exTableUniq.getEmptyState

theorem claim_C6_witness :
    (exTableUniq.getIdListByIndex c6branch "f" (.num 5)).length ≤ 1 ∧
    exTableUniq.getIdListByIndex
      (exTableUniq.insertToIndex exTableUniq.cowTx c6branch 7
        { index := false, isUnique := true } "f" (.num 5)) "f" (.num 5) = [7] := by
  constructor
  · exact claim_C6_unique_index.1 exTableUniq exTableUniq_wf "f" (by decide) rfl
      [.insert [("id", .num 0), ("f", .num 5)],
       .insert [("id", .num 1), ("f", .num 5)]] c6branch rfl rfl (.num 5)
      (by intro h; cases h)
  · exact claim_C6_unique_index.2 exTableUniq exTableUniq.cowTx c6branch 7
      { index := false, isUnique := true } "f" (.num 5) rfl (by intro h; cases h)

/-- C10.  The value `null` is exempt from uniqueness handling: indexing a
`null` value under a unique field behaves exactly like a non-unique index
— insertion appends the identity to the shared `null` bucket (so any
number of records may hold `null` simultaneously), and deletion filters
the identity out of the bucket while keeping the bucket's key present. -/
theorem claim_C10_null_unique_exemption :
    (∀ (t : Table) (tx : Tx) (b : Branch) (id : Int) (o1 o2 : FieldOpts) (f : String),
      t.insertToIndex tx b id o1 f .null = t.insertToIndex tx b id o2 f .null) ∧
    (∀ (t : Table) (tx : Tx) (b : Branch) (id : Int) (o : FieldOpts) (f : String),
      t.getIdListByIndex (t.insertToIndex tx b id o f .null) f .null =
        t.getIdListByIndex b f .null ++ [id]) ∧
    (∀ (t : Table) (tx : Tx) (b : Branch) (id : Int) (o1 o2 : FieldOpts) (f : String),
      t.deleteFromIndex tx b id o1 f .null = t.deleteFromIndex tx b id o2 f .null) ∧
    (∀ (t : Table) (tx : Tx) (b : Branch) (id : Int) (o : FieldOpts) (f : String)
      (b2 : Branch), t.deleteFromIndex tx b id o f .null = some b2 →
      t.getIdListByIndex b2 f .null =
        (t.getIdListByIndex b f .null).filter (fun i => i != id) ∧
      (alookup IKey.knull ((alookup f b2.indexes).getD [])).isSome = true) ∧
    (exTableUniq.run exTableUniq.cowTx exTableUniq.getEmptyState
        [.insert [("id", .num 0), ("f", .null)], .insert [("id", .num 1), ("f", .null)],
         .insert [("id", .num 2), ("f", .null)]]).map
        (fun b => exTableUniq.getIdListByIndex b "f" .null) = some [0, 1, 2] := by
  refine ⟨?_, ?_, ?_, ?_, rfl⟩
  · intro t tx b id o1 o2 f
    rw [Table.insertToIndex, Table.insertToIndex]
    rw [show jsEq JSVal.null JSVal.null = true from rfl]
    rw [Bool.not_true, Bool.and_false, Bool.and_false]
  · intro t tx b id o f
    rw [getIdListByIndex_eq_bucketK, bucketK_insertToIndex, if_pos rfl, if_pos rfl,
      newBucketIns]
    rw [show jsEq JSVal.null JSVal.null = true from rfl, Bool.not_true, Bool.and_false]
    rw [if_neg Bool.false_ne_true]
    rfl
  · intro t tx b id o1 o2 f
    rw [Table.deleteFromIndex, Table.deleteFromIndex]
    rw [show jsEq JSVal.null JSVal.null = true from rfl]
    rw [Bool.not_true, Bool.and_false, Bool.and_false]
  · intro t tx b id o f b2 hdel
    constructor
    · obtain ⟨_, _, _, hdbk⟩ := deleteFromIndex_eq t tx b id o f .null b2 hdel
      rw [getIdListByIndex_eq_bucketK, getIdListByIndex_eq_bucketK, hdbk f (toKey .null),
        if_pos rfl, if_pos rfl]
      rw [show jsEq JSVal.null JSVal.null = true from rfl, Bool.not_true, Bool.and_false]
      rw [if_neg Bool.false_ne_true]
    · rw [Table.deleteFromIndex] at hdel
      cases hfi : alookup f b.indexes with
      | none => simp only [hfi] at hdel; cases hdel
      | some fi =>
        simp only [hfi] at hdel
        rw [show (o.isUnique && !(jsEq JSVal.null JSVal.null)) = false by
          rw [show jsEq JSVal.null JSVal.null = true from rfl, Bool.not_true,
            Bool.and_false]] at hdel
        rw [if_neg Bool.false_ne_true] at hdel
        cases hbu : alookup (toKey JSVal.null) fi with
        | none => rw [hbu] at hdel; cases hdel
        | some bucket =>
          rw [hbu] at hdel
          cases hdel
          show (alookup IKey.knull ((alookup f
            (aset f (aset (toKey JSVal.null) _ fi) b.indexes)).getD [])).isSome = true
          rw [alookup_aset, if_pos rfl, Option.getD_some, alookup_aset]
          rfl

/-- The C10 witness fixtures: a branch holding two `null`-valued records
under the unique field, and the branch after removing one of them from the
index. -/
def c10branch : Branch :=
  (exTableUniq.run exTableUniq.cowTx exTableUniq.getEmptyState
    [.insert [("id", .num 0), ("f", .null)],
     .insert [("id", .num 1), ("f", .null)]]).getD exTableUniq.getEmptyState

def c10after : Branch :=
  (exTableUniq.deleteFromIndex exTableUniq.cowTx c10branch 0
    { index := false, isUnique := true } "f" .null).getD exTableUniq.getEmptyState

theorem claim_C10_witness :
    exTableUniq.getIdListByIndex c10after "f" .null =
      (exTableUniq.getIdListByIndex c10branch "f" .null).filter (fun i => i != 0) ∧
    (alookup IKey.knull ((alookup "f" c10after.indexes).getD [])).isSome = true :=
  claim_C10_null_unique_exemption.2.2.2.1 exTableUniq exTableUniq.cowTx c10branch 0
    { index := false, isUnique := true } "f" c10after rfl

/-- The branch used by the C1 fixtures: one record with identity 1. -/
def c1branch : Branch :=
  { items := [1], itemsById := [(1, [("id", .num 1), ("name", .num 2)])],
    meta := [("maxId", 1)], indexes := [] }

/-- C1 counterexample: the record with identity 1 exists and even matches
the second filter's predicate, yet following the id-pinning filter with
that second filter yields an empty result — the fast path hands the *bare
record object* to the next clause, whose lodash `filter` then iterates the
record's property values instead of a row list.  So the claim fails when
any clause follows the id filter. -/
theorem claim_C1_counterexample :
    exTable.idExists c1branch 1 = true ∧
    isMatch (.obj [("id", .num 1), ("name", .num 2)]) [("name", .num 2)] = true ∧
    exTable.query c1branch [.filter [("id", .num 1)]] =
      Rows.one (.obj [("id", .num 1), ("name", .num 2)]) ∧
    exTable.query c1branch [.filter [("id", .num 1)], .filter [("name", .num 2)]] =
      Rows.arr [] :=
  ⟨rfl, rfl, rfl, rfl⟩

/-- C1 (amended: the id-pinning filter must be the *last* clause — every
later clause re-processes the bare fast-path result — and the pinned value
must be truthy, i.e. a non-zero number, or the fast path is skipped).
Whatever clauses precede it, a trailing filter clause that pins the id
attribute to a truthy numeric value returns the bare record with that
identity, or an empty array when the identity is absent. -/
theorem claim_C1_primary_key_fast_path (t : Table) (branch : Branch)
    (clauses : List Clause) (payload : Rec) (n : Int)
    (hpin : alookup t.idAttribute payload = some (.num n)) (hn : n ≠ 0) :
    t.query branch (clauses ++ [.filter payload]) =
      (match alookup n branch.itemsById with
       | some r => Rows.one (.obj r)
       | none => Rows.arr []) :=
  query_filter_id_last t branch clauses payload n hpin hn

theorem claim_C1_witness :
    exTable.query c1branch
        ([Clause.exclude [("name", .num 9)], Clause.orderBy ["name"] []] ++
          [Clause.filter [("id", .num 1)]]) =
      Rows.one (.obj [("id", .num 1), ("name", .num 2)]) :=
  claim_C1_primary_key_fast_path exTable c1branch
    [Clause.exclude [("name", .num 9)], Clause.orderBy ["name"] []]
    [("id", .num 1)] 1 rfl (by decide)

/-- The model used by the C8/C9 fixtures: `A` declares one many-to-many
field `bs` targeting `B`. -/
def mA : ModelDef := { modelName := "A", fields := [("bs", .manyToMany "B")] }

/-- C8 counterexample: registering the same collection twice synthesizes
its join collection twice — `register` has no guard against duplicate
registration, so "never created twice for the same relationship" fails. -/
theorem claim_C8_counterexample :
    (Schema.register (Schema.register { registry := [], implicitThroughModels := [] }
        [mA]) [mA]).implicitThroughModels =
      [mkThroughModel "A" "bs" "B", mkThroughModel "A" "bs" "B"] ∧
    (mkThroughModel "A" "bs" "B").modelName = m2mName "A" "bs" :=
  ⟨rfl, rfl⟩

/-- C8 (amended: per registration call — each call synthesizes exactly one
join collection per declared many-to-many field, named deterministically,
carrying exactly two foreign keys with `'this'` resolved to the owning
collection, appended to the implicit list only; but re-registering the
same collection synthesizes the join collection again, so uniqueness per
relationship holds only when each collection is registered once). -/
theorem claim_C8_m2m_registration :
    (∀ (s : Schema) (m : ModelDef),
      (s.register [m]).registry = s.registry ++ [m] ∧
      (s.register [m]).implicitThroughModels =
        s.implicitThroughModels ++ throughModelsOf m) ∧
    (∀ m : ModelDef, throughModelsOf m =
      m.fields.filterMap (fun fd =>
        match fd.2 with
        | .manyToMany target => some (mkThroughModel m.modelName fd.1 target)
        | _ => none)) ∧
    (∀ thisName fieldName target : String,
      (mkThroughModel thisName fieldName target).modelName =
        m2mName thisName fieldName ∧
      (mkThroughModel thisName fieldName target).fields =
        [(m2mFromFieldName thisName, .foreignKey thisName),
         (m2mToFieldName (if target = "this" then thisName else target),
          .foreignKey (if target = "this" then thisName else target))]) := by
  refine ⟨?_, fun m => rfl, fun a b c => ⟨rfl, rfl⟩⟩
  intro s m
  rw [register_one_char]
  exact ⟨rfl, rfl⟩

/-- C9.  `get` is exactly a first-match search over the explicit registry
followed by the implicit through models; it fails (the thrown NotFound
error, embedded as `none`) precisely when no registered or implicit
definition bears the name; and a successful lookup returns a definition
with the requested name from one of the two lists. -/
theorem claim_C9_get_lookup :
    ∀ (s : Schema) (name : String),
      Schema.get s name =
        ((s.registry.find? (fun m => m.modelName == name)).or
          (s.implicitThroughModels.find? (fun m => m.modelName == name))) ∧
      (Schema.get s name = none ↔
        ∀ m ∈ s.registry ++ s.implicitThroughModels, m.modelName ≠ name) ∧
      (∀ m : ModelDef, Schema.get s name = some m →
        m.modelName = name ∧ m ∈ s.registry ++ s.implicitThroughModels) := by
  intro s name
  refine ⟨?_, ?_, ?_⟩
  · rw [Schema.get, List.find?_append]
  · rw [Schema.get, List.find?_eq_none]
    constructor
    · intro h m hm hc
      have h2 := h m hm
      apply h2
      rw [hc]
      simp
    · intro h m hm
      intro hc
      exact h m hm (by simpa using hc)
  · intro m hm
    rw [Schema.get] at hm
    refine ⟨by simpa using List.find?_some hm, List.mem_of_find?_eq_some hm⟩

/-- The schema used by the C9 witness. -/
def s9 : Schema :=
  Schema.register { registry := [], implicitThroughModels := [] } [mA]

theorem claim_C9_witness :
    mA.modelName = "A" ∧ mA ∈ s9.registry ++ s9.implicitThroughModels :=
  (claim_C9_get_lookup s9 "A").2.2 mA rfl
